import Mathlib

/-!
Verification of the opencode-miniterm streaming accumulator and incremental
terminal renderer. The definitions below are a shallow embedding of
`src/render.ts` (render, lastThinkingLines, clearRenderedLines,
countRenderedLines, wrapText), `src/ansi.ts` (stripAnsiCodes,
ANSI_CODE_PATTERN and the escape constants) and the event processing
functions of `src/index.ts` (processStepStart, processReasoning,
processText, processToolUse, processDiff).

Modelling conventions:
- JavaScript strings are modelled as Lean `String` (lists of characters);
  the source indexes UTF-16 code units, which only differs on surrogate
  pairs and never affects the structural properties proved here.
- The mutable `state` object is threaded explicitly; `state.write` calls
  are collected into a list of written strings.
- `process.stdout.columns` is modelled as a `Nat` argument `width`, with
  `width = 0` standing for a falsy (absent) column count, matching the
  `process.stdout.columns || 80` and `if (process.stdout.columns)` tests.
- Loops that advance a string cursor by a variable amount (regex matches)
  are written with an explicit fuel argument so that all definitions are
  structurally recursive and computable by `decide`; the public wrappers
  instantiate the fuel with the input length, which is always sufficient
  because every iteration consumes at least one character.
-/

namespace Miniterm

/-- Escape constants from `src/ansi.ts`. -/
def ESC : Char := '\x1b'

def RESET : String := "\x1b[0m"

def BRIGHT_BLACK : String := "\x1b[90m"

def RED : String := "\x1b[31m"

def GREEN : String := "\x1b[32m"

def BLUE : String := "\x1b[34m"

def CURSOR_HOME : String := "\x1b[0G"

/-- `ansi.CURSOR_UP(lines)` from `src/ansi.ts`. -/
def CURSOR_UP (lines : Nat) : String := "\x1b[" ++ toString lines ++ "A"

/-- Characters allowed in the parameter section of an SGR sequence,
matching the `[0-9;]` class of `ANSI_CODE_PATTERN = /^\x1b\[[0-9;]*m/`. -/
def isCsiParam (c : Char) : Bool := c.isDigit || c = ';'

/-- Matching `ANSI_CODE_PATTERN` at the start of a character list:
returns the matched escape sequence and the remainder on success.
Mirrors `text.slice(i).match(ansi.ANSI_CODE_PATTERN)`. -/
def ansiMatch : List Char → Option (List Char × List Char)
  | '\x1b' :: '[' :: rest =>
    match rest.dropWhile isCsiParam with
    | 'm' :: r3 => some ('\x1b' :: '[' :: (rest.takeWhile isCsiParam ++ ['m']), r3)
    | _ => none
  | _ => none

/-- `stripAnsiCodes` from `src/ansi.ts`: remove every occurrence of
`/\x1b\[[0-9;]*m/g`, scanning left to right. Fueled loop. -/
def stripAnsiF : Nat → List Char → List Char
  | 0, cs => cs
  | _ + 1, [] => []
  | fuel + 1, c :: rest =>
    match ansiMatch (c :: rest) with
    | some (_, r) => stripAnsiF fuel r
    | none => c :: stripAnsiF fuel rest

/-- `stripAnsiCodes(str)` on character lists. -/
def stripAnsi (cs : List Char) : List Char := stripAnsiF cs.length cs

/-- `stripAnsiCodes(str)` on strings. -/
def stripAnsiStr (s : String) : String := ⟨stripAnsi s.data⟩

/-- Whitespace trimmed by JavaScript `trim`/`trimStart` restricted to the
characters this program can produce. -/
def jsWhitespace (c : Char) : Bool := c = ' ' || c = '\t' || c = '\n' || c = '\r'

/-- JavaScript `String.prototype.trimStart`. -/
def trimStart (s : String) : String := ⟨s.data.dropWhile jsWhitespace⟩

/-- JavaScript `String.prototype.trim`. -/
def jsTrim (s : String) : String :=
  ⟨((s.data.dropWhile jsWhitespace).reverse.dropWhile jsWhitespace).reverse⟩

/-- Word-separator characters of `wrapText`'s scanning loop:
`"\n"`, `"\r"`, `" "` and `"\t"`. -/
def isSep (c : Char) : Bool := c = '\n' || c = '\r' || c = ' ' || c = '\t'

/-- The inner word-collecting loop of `wrapText` (`src/render.ts`,
lines 235-256): collects characters until a separator, carrying ANSI
escape sequences at zero visible width. Returns the word, its visible
length, and the unconsumed remainder. Fueled. -/
def scanWordF : Nat → List Char → List Char × Nat × List Char
  | 0, cs => ([], 0, cs)
  | _ + 1, [] => ([], 0, [])
  | fuel + 1, c :: rest =>
    if isSep c then ([], 0, c :: rest)
    else if c = '\x1b' && rest.head? = some '[' then
      match ansiMatch (c :: rest) with
      | some (m, r) =>
        let (w, v, r') := scanWordF fuel r
        (m ++ w, v, r')
      | none =>
        let (w, v, r') := scanWordF fuel rest
        ('\x1b' :: w, v, r')
    else
      let (w, v, r') := scanWordF fuel rest
      (c :: w, v + 1, r')

/-- The word scanner with sufficient fuel. -/
def scanWord (cs : List Char) : List Char × Nat × List Char := scanWordF cs.length cs

/-- The wrapper's mutable locals `lines`, `currentLine`, `visibleLength`. -/
structure WrapState where
  lines : List (List Char)
  currentLine : List Char
  visibleLength : Nat
deriving DecidableEq, Repr

/-- `pushLine` from `src/render.ts` lines 160-164. -/
def pushLine (st : WrapState) : WrapState := ⟨st.lines ++ [st.currentLine], [], 0⟩

/-- The segment-collecting inner loop of the hard-split branch of
`addWord` (`src/render.ts` lines 190-211): consume characters until the
segment's visible length reaches `width`, escape sequences at zero
width. Fueled. -/
def takeSegmentF (width : Nat) : Nat → List Char → List Char → Nat →
    List Char × Nat × List Char
  | 0, cs, acc, v => (acc, v, cs)
  | _ + 1, [], acc, v => (acc, v, [])
  | fuel + 1, c :: rest, acc, v =>
    if width ≤ v then (acc, v, c :: rest)
    else if c = '\x1b' && rest.head? = some '[' then
      match ansiMatch (c :: rest) with
      | some (m, r) => takeSegmentF width fuel r (acc ++ m) v
      | none => takeSegmentF width fuel rest (acc ++ ['\x1b']) v
    else takeSegmentF width fuel rest (acc ++ [c]) (v + 1)

/-- The outer hard-split loop over an over-wide word (`src/render.ts`
lines 189-220). The `segment = []` case can only arise at `width = 0`,
where the source loops forever; it is modelled as stopping. Fueled. -/
def hardSplitF (width : Nat) : Nat → List Char → WrapState → WrapState
  | 0, _, st => st
  | _ + 1, [], st => st
  | fuel + 1, c :: rest, st =>
    let (seg, segVis, rest') := takeSegmentF width (c :: rest).length (c :: rest) [] 0
    if seg.isEmpty then st
    else
      let st' : WrapState :=
        if st.currentLine.isEmpty then ⟨st.lines, seg, segVis⟩
        else ⟨st.lines ++ [st.currentLine], seg, segVis⟩
      hardSplitF width fuel rest' st'

/-- The `wouldFit` test of `addWord` (`src/render.ts` lines 169-172). -/
def fits (width wordVisibleLength visibleLength : Nat) : Bool :=
  if visibleLength = 0 then wordVisibleLength ≤ width
  else visibleLength + 1 + wordVisibleLength ≤ width

/-- `addWord` from `src/render.ts` lines 166-222. -/
def addWord (width : Nat) (word : List Char) (wordVisibleLength : Nat)
    (st : WrapState) : WrapState :=
  if word.isEmpty || wordVisibleLength == 0 then st
  else
    let wouldFit := fits width wordVisibleLength st.visibleLength
    if wouldFit then
      if 0 < st.visibleLength then
        ⟨st.lines, st.currentLine ++ ' ' :: word, st.visibleLength + 1 + wordVisibleLength⟩
      else
        ⟨st.lines, st.currentLine ++ word, st.visibleLength + wordVisibleLength⟩
    else if 0 < st.visibleLength then
      ⟨st.lines ++ [st.currentLine], word, wordVisibleLength⟩
    else if wordVisibleLength ≤ width then
      ⟨st.lines, word, wordVisibleLength⟩
    else
      hardSplitF width word.length word st

/-- The main character loop of `wrapText` (`src/render.ts` lines
224-260). Fueled: each step consumes at least one character. -/
def wrapLoopF (width : Nat) : Nat → List Char → WrapState → WrapState
  | 0, _, st => st
  | _ + 1, [], st => st
  | fuel + 1, c :: rest, st =>
    if c = '\n' then wrapLoopF width fuel rest (pushLine st)
    else if c = '\r' then wrapLoopF width fuel rest st
    else if c = ' ' || c = '\t' then wrapLoopF width fuel rest st
    else
      let (w, v, r) := scanWord (c :: rest)
      wrapLoopF width fuel r (addWord width w v st)

/-- `wrapText(text, width)` from `src/render.ts` lines 154-267. -/
def wrapText (s : String) (width : Nat) : List String :=
  let st := wrapLoopF width s.data.length s.data ⟨[], [], 0⟩
  let st := if !st.currentLine.isEmpty || st.lines.isEmpty then pushLine st else st
  st.lines.map fun l => ⟨l⟩

/-- The line-break scan of `lastThinkingLines` (`src/render.ts` lines
84-105): walk the ANSI-stripped text tracking the character index `i`,
the line count, the current column, and the recorded line-break start
indices. Returns the final line count, column, and break list. -/
def thinkScan (consoleWidth : Nat) : List Char → Nat → Nat → Nat → List Nat →
    Nat × Nat × List Nat
  | [], _, lineCount, col, breaks => (lineCount, col, breaks)
  | c :: rest, i, lineCount, col, breaks =>
    if c = '\n' then thinkScan consoleWidth rest (i + 1) (lineCount + 1) 0 (breaks ++ [i + 1])
    else if c = '\r' then thinkScan consoleWidth rest (i + 1) lineCount col breaks
    else
      let col' := col + 1
      if consoleWidth ≤ col' then
        thinkScan consoleWidth rest (i + 1) (lineCount + 1) 0 (breaks ++ [i])
      else thinkScan consoleWidth rest (i + 1) lineCount col' breaks

/-- The line-break list computed by `lastThinkingLines` on the stripped
text (initial value `[0]`). -/
def thinkLineBreaks (width : Nat) (text : String) : List Nat :=
  let consoleWidth := if width = 0 then 80 else width
  (thinkScan consoleWidth (stripAnsi text.data) 0 0 0 [0]).2.2

/-- `lastThinkingLines(text)` from `src/render.ts` lines 80-113:
keep the suffix of `text` starting at `lineBreaks[max(0, len - 10)]`,
where the break indices are computed on the ANSI-stripped text wrapped
at the console width (`process.stdout.columns || 80`, here
`if width = 0 then 80 else width`). `Nat` subtraction models
`Math.max(0, lineBreaks.length - 10)` and `getD _ 0` models the
`|| 0` fallback. -/
def lastThinkingLines (width : Nat) (text : String) : String :=
  let breaks := thinkLineBreaks width text
  let startIndex := breaks.getD (breaks.length - 10) 0
  ⟨text.data.drop startIndex⟩

/-- The scanning loop of `countRenderedLines` (`src/render.ts` lines
130-145), tracking line count and column. -/
def countScan (consoleWidth : Nat) : List Char → Nat → Nat → Nat × Nat
  | [], lineCount, col => (lineCount, col)
  | c :: rest, lineCount, col =>
    if c = '\n' then countScan consoleWidth rest (lineCount + 1) 0
    else if c = '\r' then countScan consoleWidth rest lineCount col
    else
      let col' := col + 1
      if consoleWidth ≤ col' then countScan consoleWidth rest (lineCount + 1) 0
      else countScan consoleWidth rest lineCount col'

/-- `countRenderedLines(state, output)` from `src/render.ts` lines
123-152, returning the computed count. -/
def countRenderedLines (width : Nat) (output : String) : Nat :=
  let consoleWidth := if width = 0 then 80 else width
  let (lineCount, col) := countScan consoleWidth (stripAnsi output.data) 0 0
  if 0 < col then lineCount + 1 else lineCount

/-- One accumulated response fragment (`AccumulatedPart` in
`src/index.ts` plus the `active` flag that `render` stores on it; a
fresh part's unset `active` is the falsy `false`). -/
structure Part where
  title : String
  text : String
  active : Bool
deriving DecidableEq, Repr

/-- The renderer-visible `State` of `src/index.ts` (the `write` sink is
modelled by collecting written strings in `RenderResult`). -/
structure State where
  renderedLinesCount : Nat
  accumulatedResponse : List Part
deriving DecidableEq, Repr

/-- One step of the visibility loop of `render` (`src/render.ts` lines
20-39), processing one part given the `foundPart`/`foundFiles` flags
accumulated from the parts after it. -/
def visStep (details : Bool) (p : Part) (foundPart foundFiles : Bool) :
    Part × Bool × Bool :=
  if details then ({ p with active := true }, foundPart, foundFiles)
  else if p.title = "thinking" then ({ p with active := !foundPart }, true, foundFiles)
  else if p.title = "tool" then ({ p with active := !foundPart }, foundPart, foundFiles)
  else if p.title = "files" then ({ p with active := !foundFiles }, foundPart, true)
  else ({ p with active := true }, true, foundFiles)

/-- The visibility loop of `render`, iterating from the most recent part
backwards (`for (let i = ...length - 1; i >= 0; i--)`): the parts after
position `i` are processed first and their flags flow into step `i`. -/
def markActiveAux (details : Bool) : List Part → List Part × Bool × Bool
  | [] => ([], false, false)
  | p :: rest =>
    let (rest', foundPart, foundFiles) := markActiveAux details rest
    let (p', foundPart', foundFiles') := visStep details p foundPart foundFiles
    (p' :: rest', foundPart', foundFiles')

/-- The part list with `active` flags recomputed by `render`. -/
def markActive (details : Bool) (ps : List Part) : List Part :=
  (markActiveAux details ps).1

/-- The tool branch of the paint loop (`src/render.ts` lines 50-59):
split at the first colon and gray out the suffix. -/
def formatTool (text : String) : String :=
  if text.data.contains ':' then
    let pre : List Char := text.data.takeWhile (· ≠ ':')
    String.mk (pre ++ [':']) ++ " " ++ BRIGHT_BLACK ++
      String.mk (text.data.drop (pre.length + 1)) ++ RESET ++ "\n\n"
  else text ++ "\n\n"

/-- The text appended to `output` for one painted part (`src/render.ts`
lines 45-62); titles without a branch contribute nothing. -/
def formatPart (details : Bool) (width : Nat) (p : Part) : String :=
  if p.title = "thinking" then
    let partText :=
      if details then trimStart p.text else lastThinkingLines width (trimStart p.text)
    "💭 " ++ BRIGHT_BLACK ++ "Thinking...\n\n" ++ partText ++ RESET ++ "\n\n"
  else if p.title = "response" then
    "💬 Response:\n\n" ++ trimStart p.text ++ "\n\n"
  else if p.title = "tool" then formatTool p.text
  else if p.title = "files" then p.text ++ "\n\n"
  else ""

/-- The paint loop of `render` (`src/render.ts` lines 41-63): append the
formatted text of every active part with non-blank text. -/
def partsOutput (details : Bool) (width : Nat) (ps : List Part) : String :=
  ps.foldl
    (fun acc p =>
      if p.active && !(jsTrim p.text == "") then acc ++ formatPart details width p else acc)
    ""

/-- The full `output` string built by `render`, including the detailed
header (`src/render.ts` lines 9-13). -/
def renderOutput (details : Bool) (width : Nat) (ps : List Part) : String :=
  (if details then "📋 Detailed output from the last run:\n\n" else "") ++
    partsOutput details width ps

/-- The `state.write` calls of `clearRenderedLines` (`src/render.ts`
lines 115-121). -/
def clearWrites (n : Nat) : List String :=
  if 0 < n then [CURSOR_UP n ++ "\x1b[J", CURSOR_HOME] else []

/-- The observable outcome of one `render` call: the painted-line count
that `clearRenderedLines` cleared, the `state.write` calls made after
the clear, and the updated state. -/
structure RenderResult where
  clearCount : Nat
  writes : List String
  state : State
deriving DecidableEq, Repr

/-- `render(state, details)` from `src/render.ts` lines 6-78. `width` is
`process.stdout.columns`, with `0` meaning a falsy (unknown) width: when
it is known the output block is wrapped and each line written followed
by a newline write, and the count records the number of lines; when it
is unknown the raw block is written and the count estimated by
`countRenderedLines`. -/
def render (width : Nat) (details : Bool) (st : State) : RenderResult :=
  let clearCount := st.renderedLinesCount
  let marked := markActive details st.accumulatedResponse
  let output := renderOutput details width marked
  if output = "" then
    ⟨clearCount, [], ⟨0, marked⟩⟩
  else if width ≠ 0 then
    let lines := wrapText output width
    ⟨clearCount, lines.foldr (fun l acc => l :: "\n" :: acc) [], ⟨lines.length, marked⟩⟩
  else
    ⟨clearCount, [output], ⟨countRenderedLines width output, marked⟩⟩

/-- The number of newline-terminated rows written by a render call: the
count of newline characters across all of its writes. -/
def rowsWritten (r : RenderResult) : Nat :=
  (r.writes.map fun s => s.data.count '\n').sum

/-- JavaScript truthiness of an optional string (`undefined` and `""`
are falsy). -/
def truthy : Option String → Bool
  | none => false
  | some s => !(s == "")

/-- `processStepStart()` from `src/index.ts` lines 1629-1634: push an
empty thinking part, then render. (The module-level `processing` flag it
sets gates `processText` in `processPart` and is not modelled.) -/
def processStepStart (width : Nat) (st : State) : State :=
  (render width false
    { st with accumulatedResponse := st.accumulatedResponse ++ [⟨"thinking", "", false⟩] }).state

/-- The backwards search-and-append of `processReasoning`: extend the
text of the last part titled `"thinking"`, if any. -/
def appendToLastThinkingRev (d : String) : List Part → List Part
  | [] => []
  | p :: rest =>
    if p.title = "thinking" then { p with text := p.text ++ d } :: rest
    else p :: appendToLastThinkingRev d rest

/-- The same search on the list in its stored order. -/
def appendToLastThinking (d : String) (ps : List Part) : List Part :=
  (appendToLastThinkingRev d ps.reverse).reverse

/-- `processReasoning(part, partKey, delta)` from `src/index.ts` lines
1636-1652: when the delta is truthy, append it to the most recent
thinking part (doing nothing to the list when none exists) and render;
otherwise do nothing. -/
def processReasoning (width : Nat) (delta : Option String) (st : State) : State :=
  if truthy delta then
    let d := delta.getD ""
    (render width false
      { st with accumulatedResponse := appendToLastThinking d st.accumulatedResponse }).state
  else st

/-- `accumulatedResponse.find((p) => p.title === "response")` followed
by appending to that part's text: extend the first response part. -/
def appendToFirstResponse (d : String) : List Part → List Part
  | [] => []
  | p :: rest =>
    if p.title = "response" then { p with text := p.text ++ d } :: rest
    else p :: appendToFirstResponse d rest

/-- `processText(part, partKey, delta)` from `src/index.ts` lines
1654-1677. `seen` is the module-level `seenParts` set (as a list),
`partText` is `part.text`. Returns the updated seen set and state. -/
def processText (width : Nat) (partKey : String) (partText delta : Option String)
    (seen : List String) (st : State) : List String × State :=
  let fresh := truthy delta && !(seen.contains partKey)
  let seen' := if fresh then seen ++ [partKey, partKey ++ "_final"] else seen
  let parts := if fresh then st.accumulatedResponse ++ [⟨"response", "", false⟩]
               else st.accumulatedResponse
  let (seen'', parts') :=
    if truthy delta then (seen', appendToFirstResponse (delta.getD "") parts)
    else if truthy partText && !(seen'.contains (partKey ++ "_final")) then
      (seen' ++ [partKey ++ "_final"], appendToFirstResponse (partText.getD "" ++ "\n") parts)
    else (seen', parts)
  (seen'', (render width false { st with accumulatedResponse := parts' }).state)

/-- `processToolUse(part)` from `src/index.ts` lines 1679-1685: always
push a new tool part built from the tool name (`part.name || "unknown"`)
and render. -/
def processToolUse (width : Nat) (name : Option String) (st : State) : State :=
  let toolText := "🔧 Using tool: " ++ (if truthy name then name.getD "" else "unknown")
  (render width false
    { st with accumulatedResponse := st.accumulatedResponse ++ [⟨"tool", toolText, false⟩] }).state

/-- One entry of the `session.diff` event payload. -/
structure DiffInfo where
  file : String
  status : String
  additions : Nat
  deletions : Nat
deriving DecidableEq, Repr

/-- One formatted line of the diff summary (`src/index.ts` lines
1691-1698). -/
def diffLine (f : DiffInfo) : String :=
  let statusIcon := if f.status = "added" then "A" else if f.status = "modified" then "M" else "D"
  let statusLabel :=
    if f.status = "added" then "added" else if f.status = "modified" then "modified" else "deleted"
  let addStr := if 0 < f.additions then GREEN ++ "+" ++ toString f.additions ++ RESET else ""
  let delStr := if 0 < f.deletions then RED ++ "-" ++ toString f.deletions ++ RESET else ""
  let stats := String.intercalate " " ([addStr, delStr].filter (· ≠ ""))
  "  " ++ BLUE ++ statusIcon ++ RESET ++ " " ++ f.file ++ " (" ++ statusLabel ++ ") " ++ stats

/-- `processDiff(diff)` from `src/index.ts` lines 1687-1705: when the
payload is present and non-empty, always push one files part holding the
trimmed formatted summary, then render; otherwise do nothing. -/
def processDiff (width : Nat) (diff : Option (List DiffInfo)) (st : State) : State :=
  match diff with
  | some files =>
    if files.length > 0 then
      let diffText := String.join (files.map fun f => diffLine f ++ "\n")
      (render width false
        { st with accumulatedResponse :=
            st.accumulatedResponse ++ [⟨"files", jsTrim diffText, false⟩] }).state
    else st
  | none => st

/-- The remainder shape at which the word scanner stops: either the end
of the input or a separator character. -/
def sepHead : List Char → Prop
  | [] => True
  | c :: _ => isSep c = true

/-- One lexical unit seen by the scanning loop of `wrapText`: an
explicit newline, or a word together with its visible length. (Spaces,
tabs and carriage returns are consumed without producing a token.) -/
inductive WrapToken where
  | nl : WrapToken
  | word : List Char → Nat → WrapToken
deriving DecidableEq, Repr

/-- The token sequence that the scanning loop of `wrapText` extracts
from its input: the loop's own word scanner applied repeatedly,
dropping spaces, tabs and carriage returns. Fueled. -/
def tokLoopF : Nat → List Char → List WrapToken
  | 0, _ => []
  | _ + 1, [] => []
  | fuel + 1, c :: rest =>
    if c = '\n' then WrapToken.nl :: tokLoopF fuel rest
    else if c = '\r' then tokLoopF fuel rest
    else if c = ' ' || c = '\t' then tokLoopF fuel rest
    else
      let (w, v, r) := scanWord (c :: rest)
      WrapToken.word w v :: tokLoopF fuel r

/-- The token sequence of a character list. -/
def tokLoop (cs : List Char) : List WrapToken := tokLoopF cs.length cs

/-- Render a token sequence back into characters in canonical form:
newlines for newline tokens, and exactly one space between two adjacent
word tokens — no leading, trailing or repeated inter-word whitespace. -/
def renderToks : List WrapToken → List Char
  | [] => []
  | WrapToken.nl :: rest => '\n' :: renderToks rest
  | [WrapToken.word w _] => w
  | WrapToken.word w _ :: WrapToken.nl :: rest => w ++ renderToks (WrapToken.nl :: rest)
  | WrapToken.word w _ :: WrapToken.word w' v' :: rest =>
    w ++ ' ' :: renderToks (WrapToken.word w' v' :: rest)

/-- The whitespace-canonical form of a string: the same words and
explicit newlines, with words joined by exactly one space. -/
def canonicalStr (s : String) : String := ⟨renderToks (tokLoop s.data)⟩

end Miniterm

/-! Theorems. -/

namespace Miniterm

theorem ansiMatch_some_append {cs m r : List Char} (h : ansiMatch cs = some (m, r)) :
    cs = m ++ r ∧ 3 ≤ m.length := by
  unfold ansiMatch at h
  split at h
  case h_1 rest =>
    split at h
    case h_1 r3 hd =>
      simp only [Option.some.injEq, Prod.mk.injEq] at h
      obtain ⟨hm, hr⟩ := h
      subst hm hr
      refine ⟨?_, by simp⟩
      simp only [List.cons_append, List.cons.injEq, true_and, List.append_assoc,
        List.singleton_append, List.nil_append]
      rw [← hd]
      exact (List.takeWhile_append_dropWhile isCsiParam rest).symm
    case h_2 => exact absurd h (by simp)
  case h_2 => exact absurd h (by simp)

/-- The characters of a recognized SGR sequence: escape, bracket,
digits or semicolons, and the final `m`. -/
theorem ansiMatch_chars {cs m r : List Char} (h : ansiMatch cs = some (m, r)) :
    ∀ c ∈ m, c = '\x1b' ∨ c = '[' ∨ isCsiParam c = true ∨ c = 'm' := by
  unfold ansiMatch at h
  split at h
  case h_1 rest =>
    split at h
    case h_1 r3 hd =>
      simp only [Option.some.injEq, Prod.mk.injEq] at h
      obtain ⟨hm, _⟩ := h
      subst hm
      intro c hc
      simp only [List.mem_cons] at hc
      rcases hc with h1 | h1 | hc2
      · exact Or.inl h1
      · exact Or.inr (Or.inl h1)
      · rcases List.mem_append.mp hc2 with h1 | h1
        · exact Or.inr (Or.inr (Or.inl (List.mem_takeWhile_imp h1)))
        · simp only [List.mem_singleton] at h1
          exact Or.inr (Or.inr (Or.inr h1))
    case h_2 => exact absurd h (by simp)
  case h_2 => exact absurd h (by simp)

theorem dropWhile_append_of_all {α : Type} {p : α → Bool} {l₁ l₂ : List α}
    (h : ∀ c ∈ l₁, p c = true) : List.dropWhile p (l₁ ++ l₂) = List.dropWhile p l₂ := by
  induction l₁ with
  | nil => rfl
  | cons a as ih =>
    simp only [List.cons_append, List.dropWhile_cons, h a (List.mem_cons_self a as), if_true]
    exact ih fun c hc => h c (List.mem_cons_of_mem a hc)

theorem takeWhile_append_of_all {α : Type} {p : α → Bool} {l₁ l₂ : List α}
    (h : ∀ c ∈ l₁, p c = true) : List.takeWhile p (l₁ ++ l₂) = l₁ ++ List.takeWhile p l₂ := by
  induction l₁ with
  | nil => rfl
  | cons a as ih =>
    simp only [List.cons_append, List.takeWhile_cons, h a (List.mem_cons_self a as), if_true]
    rw [ih fun c hc => h c (List.mem_cons_of_mem a hc)]

/-- Every recognized SGR sequence is an escape, a bracket, a run of
parameter characters, and a final `m`. -/
theorem ansiMatch_shape {cs m r : List Char} (h : ansiMatch cs = some (m, r)) :
    ∃ ps, m = '\x1b' :: '[' :: (ps ++ ['m']) ∧ ∀ c ∈ ps, isCsiParam c = true := by
  unfold ansiMatch at h
  split at h
  case h_1 rest =>
    split at h
    case h_1 r3 hd =>
      simp only [Option.some.injEq, Prod.mk.injEq] at h
      exact ⟨rest.takeWhile isCsiParam, h.1.symm, fun c hc => List.mem_takeWhile_imp hc⟩
    case h_2 => exact absurd h (by simp)
  case h_2 => exact absurd h (by simp)

/-- A well-shaped SGR sequence followed by anything matches, consuming
exactly the sequence. -/
theorem ansiMatch_of_shape {ps t : List Char} (hps : ∀ c ∈ ps, isCsiParam c = true) :
    ansiMatch ('\x1b' :: '[' :: (ps ++ ['m']) ++ t) =
      some ('\x1b' :: '[' :: (ps ++ ['m']), t) := by
  have hm : isCsiParam 'm' = false := by decide
  have hshape : ('\x1b' :: '[' :: (ps ++ ['m'])) ++ t = '\x1b' :: '[' :: (ps ++ 'm' :: t) := by
    simp
  rw [hshape]
  have hdrop : List.dropWhile isCsiParam (ps ++ 'm' :: t) = 'm' :: t := by
    rw [dropWhile_append_of_all hps, List.dropWhile_cons, hm]
    simp
  have htake : List.takeWhile isCsiParam (ps ++ 'm' :: t) = ps := by
    rw [takeWhile_append_of_all hps, List.takeWhile_cons, hm]
    simp
  simp only [ansiMatch, hdrop, htake]

/-- No separator character can occur inside a recognized SGR sequence. -/
theorem not_sep_of_matchChar {c : Char}
    (h : c = '\x1b' ∨ c = '[' ∨ isCsiParam c = true ∨ c = 'm') : isSep c = false := by
  rcases h with rfl | rfl | hp | rfl
  · decide
  · decide
  · have h1 : c ≠ '\n' := by rintro rfl; revert hp; decide
    have h2 : c ≠ '\r' := by rintro rfl; revert hp; decide
    have h3 : c ≠ ' ' := by rintro rfl; revert hp; decide
    have h4 : c ≠ '\t' := by rintro rfl; revert hp; decide
    simp [isSep, h1, h2, h3, h4]
  · decide

theorem not_sep_of_mem_ansiMatch {cs m r : List Char} (h : ansiMatch cs = some (m, r)) :
    ∀ c ∈ m, isSep c = false := fun c hc => not_sep_of_matchChar (ansiMatch_chars h c hc)

/-- Structure of the word scanner's result: the input splits into the
word and the remainder, the word contains no separators, the remainder
starts with a separator (or is empty), and the word is non-empty
whenever the input starts with a non-separator. -/
theorem scanWordF_split :
    ∀ (fuel : Nat) (cs : List Char), cs.length ≤ fuel →
      cs = (scanWordF fuel cs).1 ++ (scanWordF fuel cs).2.2 ∧
      (∀ c ∈ (scanWordF fuel cs).1, isSep c = false) ∧
      sepHead (scanWordF fuel cs).2.2 ∧
      (∀ c cs', cs = c :: cs' → isSep c = false → (scanWordF fuel cs).1 ≠ []) := by
  intro fuel
  induction fuel with
  | zero =>
    intro cs hcs
    have : cs = [] := List.length_eq_zero.mp (Nat.le_zero.mp hcs)
    subst this
    refine ⟨rfl, by simp [scanWordF], trivial, ?_⟩
    intro c cs' h
    exact absurd h (by simp)
  | succ fuel ih =>
    intro cs hcs
    match cs with
    | [] =>
      refine ⟨rfl, by simp [scanWordF], trivial, ?_⟩
      intro c cs' h
      exact absurd h (by simp)
    | c :: rest =>
      by_cases hsep : isSep c
      · have hres : scanWordF (fuel + 1) (c :: rest) = ([], 0, c :: rest) := by
          simp [scanWordF, hsep]
        rw [hres]
        refine ⟨rfl, by simp, hsep, ?_⟩
        intro c' cs' heq hns
        rw [List.cons.injEq] at heq
        rw [heq.1] at hsep
        rw [hsep] at hns
        exact absurd hns (by simp)
      · rw [Bool.not_eq_true] at hsep
        by_cases hesc : (c = '\x1b' && rest.head? = some '[') = true
        · cases hm : ansiMatch (c :: rest) with
          | some mr =>
            obtain ⟨m, r⟩ := mr
            obtain ⟨hsplit, hmlen⟩ := ansiMatch_some_append hm
            have hr : r.length ≤ fuel := by
              have hlen := congrArg List.length hsplit
              simp only [List.length_cons, List.length_append] at hlen
              simp only [List.length_cons] at hcs
              omega
            rcases hsw : scanWordF fuel r with ⟨w', v', r''⟩
            have hres : scanWordF (fuel + 1) (c :: rest) = (m ++ w', v', r'') := by
              simp [scanWordF, hsep, hesc, hm, hsw]
            obtain ⟨ih1, ih2, ih3, _⟩ := ih r hr
            rw [hsw] at ih1 ih2 ih3
            rw [hres]
            refine ⟨?_, ?_, ih3, ?_⟩
            · rw [hsplit, ih1]
              simp
            · intro x hx
              rcases List.mem_append.mp hx with hx | hx
              · exact not_sep_of_mem_ansiMatch hm x hx
              · exact ih2 x hx
            · intro c' cs' _ _
              have : m ≠ [] := by
                intro hnil
                rw [hnil] at hmlen
                simp at hmlen
              simp [this]
          | none =>
            have hc : c = '\x1b' := by
              have h1 := hesc
              simp only [Bool.and_eq_true, decide_eq_true_eq] at h1
              exact h1.1
            rcases hsw : scanWordF fuel rest with ⟨w', v', r''⟩
            have hres : scanWordF (fuel + 1) (c :: rest) = ('\x1b' :: w', v', r'') := by
              simp [scanWordF, hsep, hesc, hm, hsw]
            obtain ⟨ih1, ih2, ih3, _⟩ := ih rest (by simpa using hcs)
            rw [hsw] at ih1 ih2 ih3
            rw [hres]
            refine ⟨?_, ?_, ih3, ?_⟩
            · rw [hc, List.cons_append, ← ih1]
            · intro x hx
              rcases List.mem_cons.mp hx with hx | hx
              · rw [hx]
                decide
              · exact ih2 x hx
            · intro c' cs' _ _
              simp
        · rcases hsw : scanWordF fuel rest with ⟨w', v', r''⟩
          have hres : scanWordF (fuel + 1) (c :: rest) = (c :: w', v' + 1, r'') := by
            simp only [scanWordF, hsep, Bool.false_eq_true, if_false]
            rw [if_neg hesc, hsw]
          obtain ⟨ih1, ih2, ih3, _⟩ := ih rest (by simpa using hcs)
          rw [hsw] at ih1 ih2 ih3
          rw [hres]
          refine ⟨?_, ?_, ih3, ?_⟩
          · rw [List.cons_append, ← ih1]
          · intro x hx
            rcases List.mem_cons.mp hx with hx | hx
            · rw [hx]
              exact hsep
            · exact ih2 x hx
          · intro c' cs' _ _
            simp

/-- The splitting facts for the scanner at exact fuel. -/
theorem scanWord_split (cs : List Char) :
    cs = (scanWord cs).1 ++ (scanWord cs).2.2 ∧
    (∀ c ∈ (scanWord cs).1, isSep c = false) ∧
    sepHead (scanWord cs).2.2 ∧
    (∀ c cs', cs = c :: cs' → isSep c = false → (scanWord cs).1 ≠ []) :=
  scanWordF_split cs.length cs (Nat.le_refl _)

theorem isSep_bracket : isSep '[' = false := by decide

/-- Scanning a separator-free word followed by a separator-headed (or
empty) remainder consumes exactly the word, independently of what
follows: the scanner never reads past the separator boundary, because a
recognized escape sequence cannot contain a separator. -/
theorem scanWordF_append :
    ∀ (n : Nat) (w : List Char), w.length ≤ n → (∀ c ∈ w, isSep c = false) →
      ∀ (r : List Char), sepHead r → ∀ fuel, (w ++ r).length ≤ fuel →
        scanWordF fuel (w ++ r) = (w, (scanWord w).2.1, r) := by
  intro n
  induction n with
  | zero =>
    intro w hwn _ r hr fuel hfuel
    have : w = [] := List.length_eq_zero.mp (Nat.le_zero.mp hwn)
    subst this
    simp only [List.nil_append] at hfuel ⊢
    have hv : (scanWord ([] : List Char)).2.1 = 0 := by simp [scanWord, scanWordF]
    rw [hv]
    match r, hr with
    | [], _ => cases fuel <;> simp [scanWordF]
    | c :: r', hr =>
      have hc : isSep c = true := hr
      match fuel, hfuel with
      | fuel + 1, _ => simp [scanWordF, hc]
  | succ n ih =>
    intro w hwn hw r hr fuel hfuel
    match w, hw with
    | [], _ =>
      exact ih [] (Nat.zero_le n) (by simp) r hr fuel hfuel
    | c :: w', hw =>
      have hcsep : isSep c = false := hw c (List.mem_cons_self c w')
      have hw' : ∀ x ∈ w', isSep x = false := fun x hx => hw x (List.mem_cons_of_mem c hx)
      match fuel, hfuel with
      | fuel + 1, hfuel =>
      simp only [List.cons_append] at hfuel ⊢
      simp only [List.length_cons, Nat.add_le_add_iff_right] at hfuel
      by_cases hesc : (c = '\x1b' && (w' ++ r).head? = some '[') = true
      · -- escape branch of the scanner
        cases hm : ansiMatch (c :: (w' ++ r)) with
        | some mr =>
          obtain ⟨m, rem⟩ := mr
          obtain ⟨hsplit, hmlen⟩ := ansiMatch_some_append hm
          obtain ⟨ps, hmshape, hps⟩ := ansiMatch_shape hm
          have hmsep : ∀ x ∈ m, isSep x = false := not_sep_of_mem_ansiMatch hm
          -- the match cannot extend past the word into the separator-headed rest
          have hdecomp : ∃ w₂, c :: w' = m ++ w₂ ∧ rem = w₂ ++ r := by
            have hsplit' : (c :: w') ++ r = m ++ rem := by
              simpa using hsplit
            rcases List.append_eq_append_iff.mp hsplit' with ⟨a, ha1, ha2⟩ | ⟨a, ha1, ha2⟩
            · -- the match swallows the word and part of the rest
              match a, ha1, ha2 with
              | [], ha1, ha2 =>
                exact ⟨[], by simpa using ha1.symm, by simpa using ha2.symm⟩
              | x :: a', ha1, ha2 =>
                exfalso
                have hx : isSep x = true := by
                  rw [ha2] at hr
                  exact hr
                have hxm : x ∈ m := by
                  rw [ha1]
                  simp
                rw [hmsep x hxm] at hx
                exact absurd hx (by simp)
            · exact ⟨a, ha1, ha2⟩
          obtain ⟨w₂, hw2, hrem⟩ := hdecomp
          have hw2sep : ∀ x ∈ w₂, isSep x = false := by
            intro x hx
            exact hw x (by rw [hw2]; exact List.mem_append_right m hx)
          have hw2n : w₂.length ≤ n := by
            have h1 := congrArg List.length hw2
            have h2 := hwn
            simp only [List.length_cons, List.length_append] at h1 h2
            omega
          have hremlen : (w₂ ++ r).length ≤ fuel := by
            have h1 := congrArg List.length hw2
            have h2 := hfuel
            simp only [List.length_cons, List.length_append] at h1 h2 ⊢
            omega
          have hsw : scanWordF fuel rem = (w₂, (scanWord w₂).2.1, r) := by
            rw [hrem]
            exact ih w₂ hw2n hw2sep r hr fuel hremlen
          have hres : scanWordF (fuel + 1) (c :: (w' ++ r)) =
              (m ++ w₂, (scanWord w₂).2.1, r) := by
            simp only [scanWordF]
            rw [hcsep]
            simp only [Bool.false_eq_true, if_false]
            rw [if_pos hesc]
            simp only [hm, hsw]
          -- rescanning the word alone takes the same branch and match
          have hm' : ansiMatch (c :: w') = some (m, w₂) := by
            rw [hw2, hmshape]
            exact ansiMatch_of_shape hps
          have hsw2 : scanWordF w'.length w₂ = (w₂, (scanWord w₂).2.1, []) := by
            have hlen2 : (w₂ ++ ([] : List Char)).length ≤ w'.length := by
              have h1 := congrArg List.length hw2
              simp only [List.length_cons, List.length_append] at h1
              simp only [List.length_append, List.length_nil]
              omega
            have := ih w₂ hw2n hw2sep [] trivial w'.length hlen2
            simpa using this
          have hw2' := hw2
          rw [hmshape] at hw2'
          simp only [List.cons_append, List.append_assoc] at hw2'
          have hcc : c = '\x1b' := by
            injection hw2' with h1 _
          have hw'eq : w' = '[' :: (ps ++ ['m'] ++ w₂) := by
            injection hw2' with _ h2
            rw [h2]
            simp
          have hvis : (scanWord (c :: w')).2.1 = (scanWord w₂).2.1 := by
            have hesc' : (c = '\x1b' && w'.head? = some '[') = true := by
              rw [hcc, hw'eq]
              simp
            have hthis : scanWord (c :: w') = (m ++ w₂, (scanWord w₂).2.1, []) := by
              show scanWordF (c :: w').length (c :: w') = _
              simp only [List.length_cons]
              simp only [scanWordF]
              rw [hcsep]
              simp only [Bool.false_eq_true, if_false]
              rw [if_pos hesc']
              simp only [hm', hsw2]
            rw [hthis]
          rw [hres, hvis, hw2]
        | none =>
          have hc : c = '\x1b' := by
            have h1 := hesc
            simp only [Bool.and_eq_true, decide_eq_true_eq] at h1
            exact h1.1
          have hhead : (w' ++ r).head? = some '[' := by
            have h1 := hesc
            simp only [Bool.and_eq_true, decide_eq_true_eq] at h1
            exact h1.2
          -- the bracket must come from the word, not from the remainder
          have hw'ne : w' ≠ [] := by
            intro hnil
            rw [hnil, List.nil_append] at hhead
            cases r with
            | nil => simp at hhead
            | cons x r' =>
              simp only [List.head?_cons, Option.some.injEq] at hhead
              have hx : isSep x = true := hr
              rw [hhead] at hx
              rw [isSep_bracket] at hx
              exact absurd hx (by simp)
          have hw'head : w'.head? = some '[' := by
            cases w' with
            | nil => exact absurd rfl hw'ne
            | cons b w'' =>
              simp only [List.cons_append, List.head?_cons, Option.some.injEq] at hhead ⊢
              exact hhead
          have hw'n : w'.length ≤ n := by
            simp only [List.length_cons] at hwn
            omega
          have hih : scanWordF fuel (w' ++ r) = (w', (scanWord w').2.1, r) :=
            ih w' hw'n hw' r hr fuel hfuel
          have hres : scanWordF (fuel + 1) (c :: (w' ++ r)) =
              ('\x1b' :: w', (scanWord w').2.1, r) := by
            simp only [scanWordF]
            rw [hcsep]
            simp only [Bool.false_eq_true, if_false]
            rw [if_pos hesc]
            simp only [hm, hih]
          -- rescanning the word alone also fails to match
          have hm' : ansiMatch (c :: w') = none := by
            cases hm0 : ansiMatch (c :: w') with
            | none => rfl
            | some mt =>
              exfalso
              obtain ⟨m₀, t₀⟩ := mt
              obtain ⟨hsplit0, _⟩ := ansiMatch_some_append hm0
              obtain ⟨ps₀, hshape0, hps0⟩ := ansiMatch_shape hm0
              have habs : ansiMatch (c :: (w' ++ r)) = some (m₀, t₀ ++ r) := by
                have hrw : c :: (w' ++ r) = ('\x1b' :: '[' :: (ps₀ ++ ['m'])) ++ (t₀ ++ r) := by
                  rw [← hshape0]
                  have hx : c :: w' = m₀ ++ t₀ := hsplit0
                  rw [← List.cons_append, hx]
                  simp
                rw [hrw, ansiMatch_of_shape hps0, hshape0]
              rw [hm] at habs
              exact absurd habs (by simp)
          have hsw' : scanWordF w'.length w' = (w', (scanWord w').2.1, []) := by
            have hw'n2 : (w' ++ ([] : List Char)).length ≤ w'.length := by simp
            have := ih w' hw'n hw' [] trivial w'.length hw'n2
            simpa using this
          have hesc' : (c = '\x1b' && w'.head? = some '[') = true := by
            rw [hc, hw'head]
            simp
          have hvis : (scanWord (c :: w')).2.1 = (scanWord w').2.1 := by
            have hthis : scanWord (c :: w') = ('\x1b' :: w', (scanWord w').2.1, []) := by
              show scanWordF (c :: w').length (c :: w') = _
              simp only [List.length_cons]
              simp only [scanWordF]
              rw [hcsep]
              simp only [Bool.false_eq_true, if_false]
              rw [if_pos hesc']
              simp only [hm', hsw']
            rw [hthis]
          rw [hres, hvis, hc]
      · -- plain-character branch
        have hw'n : w'.length ≤ n := by
          simp only [List.length_cons] at hwn
          omega
        have hih : scanWordF fuel (w' ++ r) = (w', (scanWord w').2.1, r) :=
          ih w' hw'n hw' r hr fuel hfuel
        have hres : scanWordF (fuel + 1) (c :: (w' ++ r)) =
            (c :: w', (scanWord w').2.1 + 1, r) := by
          simp only [scanWordF]
          rw [hcsep]
          simp only [Bool.false_eq_true, if_false]
          rw [if_neg hesc]
          rw [hih]
        have hesc' : ¬((c = '\x1b' && w'.head? = some '[') = true) := by
          intro habs
          apply hesc
          simp only [Bool.and_eq_true, decide_eq_true_eq] at habs ⊢
          refine ⟨habs.1, ?_⟩
          cases w' with
          | nil => exact absurd habs.2 (by simp)
          | cons b w'' =>
            simp only [List.head?_cons, Option.some.injEq] at habs
            simp only [List.cons_append, List.head?_cons, Option.some.injEq]
            exact habs.2
        have hsw' : scanWordF w'.length w' = (w', (scanWord w').2.1, []) := by
          have hw'n2 : (w' ++ ([] : List Char)).length ≤ w'.length := by simp
          have := ih w' hw'n hw' [] trivial w'.length hw'n2
          simpa using this
        have hvis : (scanWord (c :: w')).2.1 = (scanWord w').2.1 + 1 := by
          have hthis : scanWord (c :: w') = (c :: w', (scanWord w').2.1 + 1, []) := by
            show scanWordF (c :: w').length (c :: w') = _
            simp only [List.length_cons]
            simp only [scanWordF]
            rw [hcsep]
            simp only [Bool.false_eq_true, if_false]
            rw [if_neg hesc']
            rw [hsw']
          rw [hthis]
        rw [hres, hvis]

/-- Characterization of one scanner step: split, separator freedom,
remainder shape, and the visible length as a function of the word. -/
theorem scanWord_char_split {cs w : List Char} {v : Nat} {r : List Char}
    (h : scanWord cs = (w, v, r)) :
    cs = w ++ r ∧ (∀ c ∈ w, isSep c = false) ∧ sepHead r ∧ v = (scanWord w).2.1 := by
  obtain ⟨h1, h2, h3, _⟩ := scanWord_split cs
  rw [h] at h1 h2 h3
  refine ⟨h1, h2, h3, ?_⟩
  have happ := scanWordF_append w.length w (Nat.le_refl _) h2 r h3
      (w ++ r).length (Nat.le_refl _)
  have h4 : scanWord cs = (w, (scanWord w).2.1, r) := by
    show scanWordF cs.length cs = _
    rw [h1]
    exact happ
  rw [h] at h4
  simp only [Prod.mk.injEq] at h4
  exact h4.2.1

/-- A word returned by the scanner on a non-separator head is non-empty. -/
theorem scanWord_ne_nil {c : Char} {rest w : List Char} {v : Nat} {r : List Char}
    (hc : isSep c = false) (h : scanWord (c :: rest) = (w, v, r)) : w ≠ [] := by
  obtain ⟨_, _, _, h4⟩ := scanWord_split (c :: rest)
  rw [h] at h4
  exact h4 c rest rfl hc

/-- The remainder after a scanner step on a non-separator head is
strictly shorter than the input. -/
theorem scanWord_rest_lt {c : Char} {rest w : List Char} {v : Nat} {r : List Char}
    (hc : isSep c = false) (h : scanWord (c :: rest) = (w, v, r)) :
    r.length < (c :: rest).length := by
  obtain ⟨h1, _, _, _⟩ := scanWord_char_split h
  have hne := scanWord_ne_nil hc h
  have := congrArg List.length h1
  simp only [List.length_cons, List.length_append] at this
  have : w.length ≠ 0 := fun h0 => hne (List.length_eq_zero.mp h0)
  simp only [List.length_cons]
  omega

/-- The main wrapping loop does not depend on the fuel once the fuel
covers the input length. -/
theorem wrapLoopF_fuel (width : Nat) :
    ∀ (n : Nat) (cs : List Char), cs.length ≤ n → ∀ (st : WrapState) (f₁ f₂ : Nat),
      cs.length ≤ f₁ → cs.length ≤ f₂ →
      wrapLoopF width f₁ cs st = wrapLoopF width f₂ cs st := by
  intro n
  induction n with
  | zero =>
    intro cs hcs st f₁ f₂ _ _
    have : cs = [] := List.length_eq_zero.mp (Nat.le_zero.mp hcs)
    subst this
    cases f₁ <;> cases f₂ <;> simp [wrapLoopF]
  | succ n ih =>
    intro cs hcs st f₁ f₂ h₁ h₂
    match cs with
    | [] => cases f₁ <;> cases f₂ <;> simp [wrapLoopF]
    | c :: rest =>
      match f₁, h₁, f₂, h₂ with
      | a + 1, h₁, b + 1, h₂ =>
        have hrest : rest.length ≤ n := by
          simp only [List.length_cons] at hcs
          omega
        have ha : rest.length ≤ a := by
          simp only [List.length_cons] at h₁
          omega
        have hb : rest.length ≤ b := by
          simp only [List.length_cons] at h₂
          omega
        by_cases hn : c = '\n'
        · simp only [wrapLoopF, hn, if_true]
          exact ih rest hrest (pushLine st) a b ha hb
        · by_cases hcr : c = '\r'
          · simp only [wrapLoopF, hn, if_false, hcr, if_true]
            exact ih rest hrest st a b ha hb
          · by_cases hsp : (c = ' ' || c = '\t') = true
            · simp only [wrapLoopF, hn, if_false, hcr, hsp, if_true]
              exact ih rest hrest st a b ha hb
            · have hcsep : isSep c = false := by
                simp only [Bool.or_eq_true, decide_eq_true_eq] at hsp
                simp only [isSep, Bool.or_eq_false_iff, decide_eq_false_iff_not]
                push_neg at hsp
                exact ⟨⟨⟨hn, hcr⟩, hsp.1⟩, hsp.2⟩
              rcases hsw : scanWord (c :: rest) with ⟨w, v, r⟩
              have hres1 : wrapLoopF width (a + 1) (c :: rest) st =
                  wrapLoopF width a r (addWord width w v st) := by
                simp [wrapLoopF, hn, hcr, hsp, hsw]
              have hres2 : wrapLoopF width (b + 1) (c :: rest) st =
                  wrapLoopF width b r (addWord width w v st) := by
                simp [wrapLoopF, hn, hcr, hsp, hsw]
              rw [hres1, hres2]
              have hrl := scanWord_rest_lt hcsep hsw
              simp only [List.length_cons] at hrl hcs h₁ h₂
              exact ih r (by omega) (addWord width w v st) a b (by omega) (by omega)

/-- The tokenizing loop does not depend on the fuel once the fuel
covers the input length. -/
theorem tokLoopF_fuel :
    ∀ (n : Nat) (cs : List Char), cs.length ≤ n → ∀ (f₁ f₂ : Nat),
      cs.length ≤ f₁ → cs.length ≤ f₂ →
      tokLoopF f₁ cs = tokLoopF f₂ cs := by
  intro n
  induction n with
  | zero =>
    intro cs hcs f₁ f₂ _ _
    have : cs = [] := List.length_eq_zero.mp (Nat.le_zero.mp hcs)
    subst this
    cases f₁ <;> cases f₂ <;> simp [tokLoopF]
  | succ n ih =>
    intro cs hcs f₁ f₂ h₁ h₂
    match cs with
    | [] => cases f₁ <;> cases f₂ <;> simp [tokLoopF]
    | c :: rest =>
      match f₁, h₁, f₂, h₂ with
      | a + 1, h₁, b + 1, h₂ =>
        have hrest : rest.length ≤ n := by
          simp only [List.length_cons] at hcs
          omega
        have ha : rest.length ≤ a := by
          simp only [List.length_cons] at h₁
          omega
        have hb : rest.length ≤ b := by
          simp only [List.length_cons] at h₂
          omega
        by_cases hn : c = '\n'
        · simp only [tokLoopF, hn, if_true]
          rw [ih rest hrest a b ha hb]
        · by_cases hcr : c = '\r'
          · simp only [tokLoopF, hn, if_false, hcr, if_true]
            exact ih rest hrest a b ha hb
          · by_cases hsp : (c = ' ' || c = '\t') = true
            · simp only [tokLoopF, hn, if_false, hcr, hsp, if_true]
              exact ih rest hrest a b ha hb
            · have hcsep : isSep c = false := by
                simp only [Bool.or_eq_true, decide_eq_true_eq] at hsp
                simp only [isSep, Bool.or_eq_false_iff, decide_eq_false_iff_not]
                push_neg at hsp
                exact ⟨⟨⟨hn, hcr⟩, hsp.1⟩, hsp.2⟩
              rcases hsw : scanWord (c :: rest) with ⟨w, v, r⟩
              have hres1 : tokLoopF (a + 1) (c :: rest) =
                  WrapToken.word w v :: tokLoopF a r := by
                simp [tokLoopF, hn, hcr, hsp, hsw]
              have hres2 : tokLoopF (b + 1) (c :: rest) =
                  WrapToken.word w v :: tokLoopF b r := by
                simp [tokLoopF, hn, hcr, hsp, hsw]
              rw [hres1, hres2]
              have hrl := scanWord_rest_lt hcsep hsw
              simp only [List.length_cons] at hrl hcs h₁ h₂
              rw [ih r (by omega) a b (by omega) (by omega)]

/-- Characters of a segment produced by the hard-split inner loop come
from the accumulator or the input; the remainder comes from the input. -/
theorem takeSegmentF_chars (width : Nat) :
    ∀ (fuel : Nat) (cs acc : List Char) (v : Nat),
      (∀ x ∈ (takeSegmentF width fuel cs acc v).1, x ∈ acc ∨ x ∈ cs) ∧
      (∀ x ∈ (takeSegmentF width fuel cs acc v).2.2, x ∈ cs) := by
  intro fuel
  induction fuel with
  | zero =>
    intro cs acc v
    exact ⟨fun x hx => Or.inl hx, fun x hx => hx⟩
  | succ fuel ih =>
    intro cs acc v
    match cs with
    | [] => exact ⟨fun x hx => Or.inl hx, fun x hx => hx⟩
    | c :: rest =>
      by_cases hv : width ≤ v
      · have hres : takeSegmentF width (fuel + 1) (c :: rest) acc v = (acc, v, c :: rest) := by
          simp [takeSegmentF, hv]
        rw [hres]
        exact ⟨fun x hx => Or.inl hx, fun x hx => hx⟩
      · cases hm : ansiMatch (c :: rest) with
        | some mr =>
          obtain ⟨m, r⟩ := mr
          have hesc : (c = '\x1b' && rest.head? = some '[') = true := by
            obtain ⟨hsplit, _⟩ := ansiMatch_some_append hm
            obtain ⟨ps, hshape, _⟩ := ansiMatch_shape hm
            rw [hshape] at hsplit
            simp only [List.cons_append, List.append_assoc] at hsplit
            injection hsplit with e1 e2
            subst e1
            rw [e2]
            simp
          have hres : takeSegmentF width (fuel + 1) (c :: rest) acc v =
              takeSegmentF width fuel r (acc ++ m) v := by
            simp [takeSegmentF, hv, hesc, hm]
          rw [hres]
          obtain ⟨hsplit, _⟩ := ansiMatch_some_append hm
          obtain ⟨ih1, ih2⟩ := ih r (acc ++ m) v
          constructor
          · intro x hx
            rcases ih1 x hx with hx2 | hx2
            · rcases List.mem_append.mp hx2 with hx3 | hx3
              · exact Or.inl hx3
              · refine Or.inr ?_
                rw [hsplit]
                exact List.mem_append_left r hx3
            · refine Or.inr ?_
              rw [hsplit]
              exact List.mem_append_right m hx2
          · intro x hx
            rw [hsplit]
            exact List.mem_append_right m (ih2 x hx)
        | none =>
          by_cases hesc : (c = '\x1b' && rest.head? = some '[') = true
          · have hres : takeSegmentF width (fuel + 1) (c :: rest) acc v =
                takeSegmentF width fuel rest (acc ++ ['\x1b']) v := by
              simp [takeSegmentF, hv, hesc, hm]
            rw [hres]
            have hc : c = '\x1b' := by
              have h1 := hesc
              simp only [Bool.and_eq_true, decide_eq_true_eq] at h1
              exact h1.1
            obtain ⟨ih1, ih2⟩ := ih rest (acc ++ ['\x1b']) v
            constructor
            · intro x hx
              rcases ih1 x hx with hx2 | hx2
              · rcases List.mem_append.mp hx2 with hx3 | hx3
                · exact Or.inl hx3
                · simp only [List.mem_singleton] at hx3
                  rw [hx3, ← hc]
                  exact Or.inr (List.mem_cons_self c rest)
              · exact Or.inr (List.mem_cons_of_mem c hx2)
            · intro x hx
              exact List.mem_cons_of_mem c (ih2 x hx)
          · have hres : takeSegmentF width (fuel + 1) (c :: rest) acc v =
                takeSegmentF width fuel rest (acc ++ [c]) (v + 1) := by
              simp only [takeSegmentF]
              rw [if_neg hv, if_neg hesc]
            rw [hres]
            obtain ⟨ih1, ih2⟩ := ih rest (acc ++ [c]) (v + 1)
            constructor
            · intro x hx
              rcases ih1 x hx with hx2 | hx2
              · rcases List.mem_append.mp hx2 with hx3 | hx3
                · exact Or.inl hx3
                · simp only [List.mem_singleton] at hx3
                  rw [hx3]
                  exact Or.inr (List.mem_cons_self c rest)
              · exact Or.inr (List.mem_cons_of_mem c hx2)
            · intro x hx
              exact List.mem_cons_of_mem c (ih2 x hx)

/-- The hard-split loop preserves a per-character invariant on the
produced lines and current line, given it on the inputs. -/
theorem hardSplitF_inv (P : Char → Prop) (width : Nat) :
    ∀ (fuel : Nat) (cs : List Char) (st : WrapState),
      (∀ l ∈ st.lines, ∀ x ∈ l, P x) → (∀ x ∈ st.currentLine, P x) → (∀ x ∈ cs, P x) →
      (∀ l ∈ (hardSplitF width fuel cs st).lines, ∀ x ∈ l, P x) ∧
      (∀ x ∈ (hardSplitF width fuel cs st).currentLine, P x) := by
  intro fuel
  induction fuel with
  | zero => intro cs st h1 h2 _; exact ⟨h1, h2⟩
  | succ fuel ih =>
    intro cs st h1 h2 h3
    match cs with
    | [] => exact ⟨h1, h2⟩
    | c :: rest =>
      rcases hts : takeSegmentF width (c :: rest).length (c :: rest) [] 0 with ⟨seg, segVis, rest'⟩
      simp only [List.length_cons] at hts
      obtain ⟨hc1, hc2⟩ := takeSegmentF_chars width (c :: rest).length (c :: rest) [] 0
      simp only [List.length_cons] at hc1 hc2
      rw [hts] at hc1 hc2
      have hseg : ∀ x ∈ seg, P x := by
        intro x hx
        rcases hc1 x hx with hx2 | hx2
        · exact absurd hx2 (by simp)
        · exact h3 x hx2
      have hrest' : ∀ x ∈ rest', P x := fun x hx => h3 x (hc2 x hx)
      by_cases hempty : seg = []
      · have hres : hardSplitF width (fuel + 1) (c :: rest) st = st := by
          simp [hardSplitF, hts, hempty]
        rw [hres]
        exact ⟨h1, h2⟩
      · by_cases hcur : st.currentLine = []
        · have hres : hardSplitF width (fuel + 1) (c :: rest) st =
              hardSplitF width fuel rest' ⟨st.lines, seg, segVis⟩ := by
            simp [hardSplitF, hts, hempty, hcur]
          rw [hres]
          exact ih rest' ⟨st.lines, seg, segVis⟩ h1 hseg hrest'
        · have hres : hardSplitF width (fuel + 1) (c :: rest) st =
              hardSplitF width fuel rest' ⟨st.lines ++ [st.currentLine], seg, segVis⟩ := by
            simp [hardSplitF, hts, hempty, hcur]
          rw [hres]
          refine ih rest' _ ?_ hseg hrest'
          intro l hl
          rcases List.mem_append.mp hl with hl2 | hl2
          · exact h1 l hl2
          · simp only [List.mem_singleton] at hl2
            rw [hl2]
            exact h2

/-- `addWord` preserves a per-character invariant, provided the space
character satisfies it and the word's characters do. -/
theorem addWord_inv (P : Char → Prop) (width : Nat) (word : List Char) (wv : Nat)
    (st : WrapState) (hsp : P ' ')
    (h1 : ∀ l ∈ st.lines, ∀ x ∈ l, P x) (h2 : ∀ x ∈ st.currentLine, P x)
    (h3 : ∀ x ∈ word, P x) :
    (∀ l ∈ (addWord width word wv st).lines, ∀ x ∈ l, P x) ∧
    (∀ x ∈ (addWord width word wv st).currentLine, P x) := by
  have hpush : ∀ l ∈ st.lines ++ [st.currentLine], ∀ x ∈ l, P x := by
    intro l hl
    rcases List.mem_append.mp hl with hl2 | hl2
    · exact h1 l hl2
    · simp only [List.mem_singleton] at hl2
      rw [hl2]
      exact h2
  have hcw : ∀ x ∈ st.currentLine ++ ' ' :: word, P x := by
    intro x hx
    rcases List.mem_append.mp hx with hx2 | hx2
    · exact h2 x hx2
    · rcases List.mem_cons.mp hx2 with hx3 | hx3
      · rw [hx3]; exact hsp
      · exact h3 x hx3
  have hcw2 : ∀ x ∈ st.currentLine ++ word, P x := by
    intro x hx
    rcases List.mem_append.mp hx with hx2 | hx2
    · exact h2 x hx2
    · exact h3 x hx2
  simp only [addWord]
  by_cases h0 : (word.isEmpty || wv == 0) = true
  · rw [if_pos h0]
    exact ⟨h1, h2⟩
  · rw [if_neg h0]
    by_cases hfit : fits width wv st.visibleLength = true
    · rw [if_pos hfit]
      by_cases hvis : 0 < st.visibleLength
      · rw [if_pos hvis]
        exact ⟨h1, hcw⟩
      · rw [if_neg hvis]
        exact ⟨h1, hcw2⟩
    · rw [if_neg hfit]
      by_cases hvis : 0 < st.visibleLength
      · rw [if_pos hvis]
        exact ⟨hpush, h3⟩
      · rw [if_neg hvis]
        by_cases hwv : wv ≤ width
        · rw [if_pos hwv]
          exact ⟨h1, h3⟩
        · rw [if_neg hwv]
          exact hardSplitF_inv P width word.length word st h1 h2 h3

/-- The main loop preserves the per-character invariant: every
character it ever places on a line is a space or a non-separator
character of the input. -/
theorem wrapLoopF_inv (P : Char → Prop) (width : Nat) (hsp : P ' ') :
    ∀ (n : Nat) (cs : List Char), cs.length ≤ n → ∀ (st : WrapState) (fuel : Nat),
      cs.length ≤ fuel →
      (∀ x ∈ cs, isSep x = false → P x) →
      (∀ l ∈ st.lines, ∀ x ∈ l, P x) → (∀ x ∈ st.currentLine, P x) →
      (∀ l ∈ (wrapLoopF width fuel cs st).lines, ∀ x ∈ l, P x) ∧
      (∀ x ∈ (wrapLoopF width fuel cs st).currentLine, P x) := by
  intro n
  induction n with
  | zero =>
    intro cs hcs st fuel _ _ h1 h2
    have : cs = [] := List.length_eq_zero.mp (Nat.le_zero.mp hcs)
    subst this
    cases fuel <;> exact ⟨h1, h2⟩
  | succ n ih =>
    intro cs hcs st fuel hfuel hP h1 h2
    match cs with
    | [] => cases fuel <;> exact ⟨h1, h2⟩
    | c :: rest =>
      match fuel, hfuel with
      | fuel + 1, hfuel =>
      have hrest : rest.length ≤ n := by
        simp only [List.length_cons] at hcs
        omega
      have hfr : rest.length ≤ fuel := by
        simp only [List.length_cons] at hfuel
        omega
      have hPrest : ∀ x ∈ rest, isSep x = false → P x :=
        fun x hx => hP x (List.mem_cons_of_mem c hx)
      by_cases hn : c = '\n'
      · simp only [wrapLoopF, hn, if_true]
        refine ih rest hrest (pushLine st) fuel hfr hPrest ?_ (by simp [pushLine])
        intro l hl
        rcases List.mem_append.mp hl with hl2 | hl2
        · exact h1 l hl2
        · simp only [List.mem_singleton] at hl2
          rw [hl2]
          exact h2
      · by_cases hcr : c = '\r'
        · simp only [wrapLoopF, hn, if_false, hcr, if_true]
          exact ih rest hrest st fuel hfr hPrest h1 h2
        · by_cases hspc : (c = ' ' || c = '\t') = true
          · simp only [wrapLoopF, hn, if_false, hcr, hspc, if_true]
            exact ih rest hrest st fuel hfr hPrest h1 h2
          · have hcsep : isSep c = false := by
              simp only [Bool.or_eq_true, decide_eq_true_eq] at hspc
              simp only [isSep, Bool.or_eq_false_iff, decide_eq_false_iff_not]
              push_neg at hspc
              exact ⟨⟨⟨hn, hcr⟩, hspc.1⟩, hspc.2⟩
            rcases hsw : scanWord (c :: rest) with ⟨w, v, r⟩
            have hres : wrapLoopF width (fuel + 1) (c :: rest) st =
                wrapLoopF width fuel r (addWord width w v st) := by
              simp [wrapLoopF, hn, hcr, hspc, hsw]
            rw [hres]
            obtain ⟨hsplit, hwsep, _, _⟩ := scanWord_char_split hsw
            have hw : ∀ x ∈ w, P x := by
              intro x hx
              refine hP x ?_ (hwsep x hx)
              rw [hsplit]
              exact List.mem_append_left r hx
            have hPr : ∀ x ∈ r, isSep x = false → P x := by
              intro x hx
              refine hP x ?_
              rw [hsplit]
              exact List.mem_append_right w hx
            obtain ⟨ha1, ha2⟩ := addWord_inv P width w v st hsp h1 h2 hw
            have hrl := scanWord_rest_lt hcsep hsw
            simp only [List.length_cons] at hrl hcs hfuel
            exact ih r (by omega) (addWord width w v st) fuel (by omega) hPr ha1 ha2

/-- Every character of every line produced by `wrapText` is either a
space (inserted between words) or a non-separator character of the
input. -/
theorem wrapText_chars (P : Char → Prop) (s : String) (width : Nat) (hsp : P ' ')
    (hP : ∀ x ∈ s.data, isSep x = false → P x) :
    ∀ l ∈ wrapText s width, ∀ x ∈ l.data, P x := by
  intro l hl
  unfold wrapText at hl
  obtain ⟨hl1, hl2⟩ := wrapLoopF_inv P width hsp s.data.length s.data (Nat.le_refl _)
    ⟨[], [], 0⟩ s.data.length (Nat.le_refl _) hP (by simp) (by simp)
  set st := wrapLoopF width s.data.length s.data ⟨[], [], 0⟩ with hst
  simp only at hl
  by_cases hc : (!st.currentLine.isEmpty || st.lines.isEmpty) = true
  · rw [if_pos hc] at hl
    simp only [pushLine, List.map_append, List.map_cons, List.map_nil] at hl
    rcases List.mem_append.mp hl with hl3 | hl3
    · obtain ⟨l0, hl0, rfl⟩ := List.mem_map.mp hl3
      exact hl1 l0 hl0
    · simp only [List.mem_singleton] at hl3
      rw [hl3]
      exact hl2
  · rw [if_neg hc] at hl
    obtain ⟨l0, hl0, rfl⟩ := List.mem_map.mp hl
    exact hl1 l0 hl0

/-- No line produced by `wrapText` contains a newline character. -/
theorem wrapText_no_newline (s : String) (width : Nat) :
    ∀ l ∈ wrapText s width, ∀ x ∈ l.data, ¬x = '\n' := by
  refine wrapText_chars (fun c => ¬c = '\n') s width (by decide) ?_
  intro x _ hx habs
  rw [habs] at hx
  exact absurd hx (by simp [isSep])

/-- Writing newline-free lines each followed by a `"\n"` write produces
exactly one newline character per line. -/
theorem count_newline_writes (lines : List String)
    (h : ∀ l ∈ lines, ∀ c ∈ l.data, ¬c = '\n') :
    ((lines.foldr (fun l acc => l :: "\n" :: acc) []).map fun s => s.data.count '\n').sum
      = lines.length := by
  induction lines with
  | nil => rfl
  | cons l t ih =>
    simp only [List.foldr_cons, List.map_cons, List.sum_cons, List.length_cons]
    have hct := ih fun l' hl' => h l' (List.mem_cons_of_mem l hl')
    have hl0 : l.data.count '\n' = 0 := by
      rw [List.count_eq_zero]
      intro habs
      exact h l (List.mem_cons_self l t) '\n' habs rfl
    have h1 : List.count '\n' ['\n'] = 1 := by decide
    rw [hl0, h1, hct]
    omega

/-- `visStep` never changes a part's title or text. -/
theorem visStep_tt (details : Bool) (p : Part) (fp ff : Bool) :
    (visStep details p fp ff).1.title = p.title ∧ (visStep details p fp ff).1.text = p.text := by
  unfold visStep
  split_ifs <;> exact ⟨rfl, rfl⟩

/-- Recomputing `visStep` on its own output with the same flags is the
identity: the `active` value depends only on the title and flags. -/
theorem visStep_stable (details : Bool) (p : Part) (fp ff : Bool) :
    visStep details (visStep details p fp ff).1 fp ff = visStep details p fp ff := by
  unfold visStep
  split_ifs <;> rfl

/-- The visibility pass preserves every part's title and text. -/
theorem markActiveAux_map_tt (details : Bool) (ps : List Part) :
    ((markActiveAux details ps).1).map (fun p => (p.title, p.text))
      = ps.map fun p => (p.title, p.text) := by
  induction ps with
  | nil => rfl
  | cons p rest ih =>
    rcases haux : markActiveAux details rest with ⟨rest', fp, ff⟩
    rcases hstep : visStep details p fp ff with ⟨p', fp', ff'⟩
    have hres : markActiveAux details (p :: rest) = (p' :: rest', fp', ff') := by
      simp [markActiveAux, haux, hstep]
    rw [hres]
    simp only [List.map_cons]
    have htt : p'.title = p.title ∧ p'.text = p.text := by
      have h0 := visStep_tt details p fp ff
      rw [hstep] at h0
      exact h0
    have ih' : rest'.map (fun p => (p.title, p.text)) = rest.map fun p => (p.title, p.text) := by
      rw [haux] at ih
      exact ih
    rw [htt.1, htt.2, ih']

/-- The visibility pass preserves the list length. -/
theorem markActiveAux_length (details : Bool) (ps : List Part) :
    (markActiveAux details ps).1.length = ps.length := by
  have := congrArg List.length (markActiveAux_map_tt details ps)
  simpa using this

/-- The visibility pass is idempotent. -/
theorem markActiveAux_idem (details : Bool) (ps : List Part) :
    markActiveAux details (markActiveAux details ps).1 = markActiveAux details ps := by
  induction ps with
  | nil => rfl
  | cons p rest ih =>
    rcases haux : markActiveAux details rest with ⟨rest', fp, ff⟩
    rcases hstep : visStep details p fp ff with ⟨p', fp', ff'⟩
    have hres : markActiveAux details (p :: rest) = (p' :: rest', fp', ff') := by
      simp [markActiveAux, haux, hstep]
    rw [hres]
    have hih : markActiveAux details rest' = (rest', fp, ff) := by
      rw [haux] at ih
      exact ih
    have hstep2 : visStep details p' fp ff = (p', fp', ff') := by
      have h := visStep_stable details p fp ff
      rw [hstep] at h
      exact h
    simp [markActiveAux, hih, hstep2]

theorem markActive_idem (details : Bool) (ps : List Part) :
    markActive details (markActive details ps) = markActive details ps := by
  unfold markActive
  rw [markActiveAux_idem]

/-- The `foundFiles` flag after the scan equals: some scanned part is a
files part (the `details` pass never touches the flags). -/
theorem markActiveAux_ff (ps : List Part) :
    (markActiveAux false ps).2.2 = ps.any fun p => p.title = "files" := by
  induction ps with
  | nil => rfl
  | cons p rest ih =>
    rcases haux : markActiveAux false rest with ⟨rest', fp, ff⟩
    rw [haux] at ih
    simp only at ih
    by_cases h1 : p.title = "thinking"
    · have hstep : visStep false p fp ff = ({ p with active := !fp }, true, ff) := by
        simp [visStep, h1]
      simp only [markActiveAux, haux, hstep, List.any_cons]
      rw [ih]
      simp [h1]
    · by_cases h2 : p.title = "tool"
      · have hstep : visStep false p fp ff = ({ p with active := !fp }, fp, ff) := by
          simp [visStep, h1, h2]
        simp only [markActiveAux, haux, hstep, List.any_cons]
        rw [ih]
        simp [h2]
      · by_cases h3 : p.title = "files"
        · have hstep : visStep false p fp ff = ({ p with active := !ff }, fp, true) := by
            simp [visStep, h1, h2, h3]
          simp only [markActiveAux, haux, hstep, List.any_cons]
          simp [h3]
        · have hstep : visStep false p fp ff = ({ p with active := true }, true, ff) := by
            simp [visStep, h1, h2, h3]
          simp only [markActiveAux, haux, hstep, List.any_cons]
          rw [ih]
          simp [h3]

/-- Position-wise description of the visibility pass: entry `i` is
`visStep` applied to the original part with the flags computed over the
parts after position `i`. -/
theorem markActiveAux_get (details : Bool) :
    ∀ (ps : List Part) (i : Nat) (hi : i < ps.length)
      (hm : i < (markActiveAux details ps).1.length),
      (markActiveAux details ps).1[i] =
        (visStep details ps[i]
          (markActiveAux details (ps.drop (i + 1))).2.1
          (markActiveAux details (ps.drop (i + 1))).2.2).1 := by
  intro ps
  induction ps with
  | nil => intro i hi; simp at hi
  | cons p rest ih =>
    intro i hi hm
    rcases haux : markActiveAux details rest with ⟨rest', fp, ff⟩
    rcases hstep : visStep details p fp ff with ⟨p', fp', ff'⟩
    have hres : markActiveAux details (p :: rest) = (p' :: rest', fp', ff') := by
      simp [markActiveAux, haux, hstep]
    match i with
    | 0 =>
      simp only [hres, List.getElem_cons_zero, List.drop_succ_cons, List.drop_zero, haux]
      have h0 : (visStep details p fp ff).1 = p' := by rw [hstep]
      exact h0.symm
    | i + 1 =>
      have hi' : i < rest.length := by
        simp only [List.length_cons] at hi
        omega
      have hm' : i < (markActiveAux details rest).1.length := by
        rw [markActiveAux_length]
        exact hi'
      have hkey := ih i hi' hm'
      simp only [hres, List.getElem_cons_succ, List.drop_succ_cons]
      rw [← hkey]
      exact (List.getElem_of_eq (by rw [haux]) hm').symm

theorem markActive_map_tt (details : Bool) (ps : List Part) :
    (markActive details ps).map (fun p => (p.title, p.text))
      = ps.map fun p => (p.title, p.text) :=
  markActiveAux_map_tt details ps

theorem markActive_length (details : Bool) (ps : List Part) :
    (markActive details ps).length = ps.length :=
  markActiveAux_length details ps

/-- `render` always clears exactly the previously recorded painted-line
count. -/
theorem render_clearCount (width : Nat) (details : Bool) (st : State) :
    (render width details st).clearCount = st.renderedLinesCount := by
  simp only [render]
  split_ifs <;> rfl

/-- The state after `render` holds the visibility-marked parts. -/
theorem render_state_parts (width : Nat) (details : Bool) (st : State) :
    (render width details st).state.accumulatedResponse
      = markActive details st.accumulatedResponse := by
  simp only [render]
  split_ifs <;> rfl

/-- `render` never changes any part's title or text. -/
theorem render_map_tt (width : Nat) (details : Bool) (st : State) :
    ((render width details st).state.accumulatedResponse).map (fun p => (p.title, p.text))
      = st.accumulatedResponse.map fun p => (p.title, p.text) := by
  rw [render_state_parts]
  exact markActive_map_tt details st.accumulatedResponse

/-- With a known terminal width, the painted-line count recorded by
`render` equals the number of newline characters it wrote: each wrapped
line is written followed by exactly one newline write. -/
theorem render_count_rows (width : Nat) (details : Bool) (st : State) (hw : width ≠ 0) :
    (render width details st).state.renderedLinesCount = rowsWritten (render width details st) := by
  simp only [render]
  by_cases h1 : renderOutput details width (markActive details st.accumulatedResponse) = ""
  · rw [if_pos h1]
    simp [rowsWritten]
  · rw [if_neg h1, if_pos hw]
    simp only [rowsWritten]
    exact (count_newline_writes
      (wrapText (renderOutput details width (markActive details st.accumulatedResponse)) width)
      (wrapText_no_newline _ width)).symm

/-- The writes of `render` depend only on the marked part list. -/
theorem render_writes_congr (width : Nat) (details : Bool) {st₁ st₂ : State}
    (h : markActive details st₁.accumulatedResponse
      = markActive details st₂.accumulatedResponse) :
    (render width details st₁).writes = (render width details st₂).writes := by
  simp only [render, h]
  split_ifs <;> rfl

/-- The paint loop's fold distributes over its accumulator. -/
theorem partsOutput_acc (details : Bool) (width : Nat) (ps : List Part) :
    ∀ acc : String,
      ps.foldl
        (fun a p =>
          if p.active && !(jsTrim p.text == "") then a ++ formatPart details width p else a)
        acc
      = acc ++ partsOutput details width ps := by
  induction ps with
  | nil =>
    intro acc
    simp [partsOutput]
  | cons p t ih =>
    intro acc
    simp only [partsOutput, List.foldl_cons] at ih ⊢
    by_cases hc : (p.active && !(jsTrim p.text == "")) = true
    · rw [if_pos hc, if_pos hc, ih (acc ++ formatPart details width p),
        ih ("" ++ formatPart details width p), String.empty_append, String.append_assoc]
    · rw [if_neg hc, if_neg hc, ih acc]

/-- The paint loop distributes over list concatenation. -/
theorem partsOutput_append (details : Bool) (width : Nat) (l₁ l₂ : List Part) :
    partsOutput details width (l₁ ++ l₂)
      = partsOutput details width l₁ ++ partsOutput details width l₂ := by
  simp only [partsOutput, List.foldl_append]
  rw [show List.foldl
      (fun a p =>
        if p.active && !(jsTrim p.text == "") then a ++ formatPart details width p else a)
      "" l₁ = partsOutput details width l₁ from rfl]
  exact partsOutput_acc details width l₂ (partsOutput details width l₁)

/-- The paint loop on a single part. -/
theorem partsOutput_singleton (details : Bool) (width : Nat) (p : Part) :
    partsOutput details width [p]
      = if p.active && !(jsTrim p.text == "") then formatPart details width p else "" := by
  simp only [partsOutput, List.foldl_cons, List.foldl_nil]
  by_cases hc : (p.active && !(jsTrim p.text == "")) = true
  · rw [if_pos hc, if_pos hc, String.empty_append]
  · rw [if_neg hc, if_neg hc]

/-- Every active part with non-blank text contributes its formatted
block to the paint loop's output. -/
theorem partsOutput_elem (details : Bool) (width : Nat) (ps : List Part) (i : Nat)
    (hi : i < ps.length) (ha : ps[i].active = true) (ht : ¬(jsTrim ps[i].text = "")) :
    ∃ a b, partsOutput details width ps = a ++ (formatPart details width ps[i] ++ b) := by
  have hsplit : ps = ps.take i ++ ([ps[i]] ++ ps.drop (i + 1)) := by
    conv_lhs => rw [← List.take_append_drop i ps]
    rw [List.drop_eq_getElem_cons hi]
    rfl
  refine ⟨partsOutput details width (ps.take i),
    partsOutput details width (ps.drop (i + 1)), ?_⟩
  conv_lhs => rw [hsplit]
  rw [partsOutput_append, partsOutput_append, partsOutput_singleton]
  have hbeq : (jsTrim ps[i].text == "") = false := beq_eq_false_iff_ne.mpr ht
  rw [ha, hbeq]
  simp

/-- Per-position title/text preservation through the visibility pass. -/
theorem markActive_get_tt (details : Bool) (ps : List Part) (i : Nat)
    (hi : i < ps.length) (hm : i < (markActive details ps).length) :
    (markActive details ps)[i].title = ps[i].title ∧
    (markActive details ps)[i].text = ps[i].text := by
  have hkey := markActiveAux_get details ps i hi (by rw [markActiveAux_length]; exact hi)
  have htt := visStep_tt details ps[i]
    (markActiveAux details (ps.drop (i + 1))).2.1
    (markActiveAux details (ps.drop (i + 1))).2.2
  constructor
  · rw [show (markActive details ps)[i] = (markActiveAux details ps).1[i] from rfl, hkey]
    exact htt.1
  · rw [show (markActive details ps)[i] = (markActiveAux details ps).1[i] from rfl, hkey]
    exact htt.2

/-- `visStep` on a response part: always active, sets `foundPart`. -/
theorem visStep_response (p : Part) (fp ff : Bool) (h : p.title = "response") :
    visStep false p fp ff = ({ p with active := true }, true, ff) := by
  have h1 : ¬(p.title = "thinking") := by rw [h]; decide
  have h2 : ¬(p.title = "tool") := by rw [h]; decide
  have h3 : ¬(p.title = "files") := by rw [h]; decide
  simp [visStep, h1, h2, h3]

/-- `visStep` on a files part: active iff no files part was seen yet. -/
theorem visStep_files (p : Part) (fp ff : Bool) (h : p.title = "files") :
    visStep false p fp ff = ({ p with active := !ff }, fp, true) := by
  have h1 : ¬(p.title = "thinking") := by rw [h]; decide
  have h2 : ¬(p.title = "tool") := by rw [h]; decide
  simp [visStep, h1, h2, h]

/-- C1: rendering is idempotent. For every turn state (and any known
terminal width and detail mode), calling `render` twice in a row with no
mutation of the accumulated parts between the calls writes the same
visible lines both times, and the cursor-up/clear count emitted at the
start of the second call covers exactly the number of newline-terminated
lines written by the first call. -/
theorem render_idempotent :
    ∀ (width : Nat) (details : Bool) (st : State), width ≠ 0 →
      (render width details (render width details st).state).writes
          = (render width details st).writes ∧
      (render width details (render width details st).state).clearCount
          = rowsWritten (render width details st) := by
  intro width details st hw
  have hmarked : markActive details ((render width details st).state.accumulatedResponse)
      = markActive details st.accumulatedResponse := by
    rw [render_state_parts]
    exact markActive_idem details st.accumulatedResponse
  refine ⟨render_writes_congr width details hmarked, ?_⟩
  rw [render_clearCount]
  exact render_count_rows width details st hw

theorem render_idempotent_witness :
    (render 80 false (render 80 false ⟨2, [⟨"response", "hi", false⟩]⟩).state).writes
        = (render 80 false ⟨2, [⟨"response", "hi", false⟩]⟩).writes ∧
    (render 80 false (render 80 false ⟨2, [⟨"response", "hi", false⟩]⟩).state).clearCount
        = rowsWritten (render 80 false ⟨2, [⟨"response", "hi", false⟩]⟩) :=
  render_idempotent 80 false ⟨2, [⟨"response", "hi", false⟩]⟩ (by decide)

/-- C2: after every call to `render` with a known terminal width, the
recorded painted-line count equals the number of newline-terminated rows
the call just wrote; rendering a response part with text
`"line1\nline2\nline3"` records 6 (label line, blank line, three text
lines, trailing blank line), and rendering empty output resets the count
to zero. -/
theorem renderedLinesCount_exact :
    (∀ (width : Nat) (details : Bool) (st : State), width ≠ 0 →
      (render width details st).state.renderedLinesCount
        = rowsWritten (render width details st)) ∧
    (render 80 false ⟨0, [⟨"response", "line1\nline2\nline3", false⟩]⟩).state.renderedLinesCount
        = 6 ∧
    (render 80 false ⟨0, [⟨"response", "line1\nline2\nline3", false⟩]⟩).writes
        = ["💬 Response:", "\n", "", "\n", "line1", "\n", "line2", "\n", "line3", "\n",
            "", "\n"] ∧
    (render 80 false ⟨5, []⟩).state.renderedLinesCount = 0 :=
  ⟨fun w d st hw => render_count_rows w d st hw, by decide, by decide, by decide⟩

theorem renderedLinesCount_exact_witness :
    (render 80 false ⟨3, [⟨"tool", "🔧 bash: ls", false⟩]⟩).state.renderedLinesCount
      = rowsWritten (render 80 false ⟨3, [⟨"tool", "🔧 bash: ls", false⟩]⟩) :=
  renderedLinesCount_exact.1 80 false ⟨3, [⟨"tool", "🔧 bash: ls", false⟩]⟩ (by decide)

/-- C5 (amended): after the visibility pass without detailed mode, every
response part is marked active regardless of position, and is painted
when its text is non-blank; files parts are not always active — they
follow their own latest-wins rule, a files part being active exactly
when no files part occurs later in the sequence. -/
theorem response_active_files_latest_wins :
    ∀ (ps : List Part) (width : Nat) (i : Nat) (hi : i < ps.length)
      (hm : i < (markActive false ps).length),
      (ps[i].title = "response" → (markActive false ps)[i].active = true) ∧
      (ps[i].title = "files" →
        ((markActive false ps)[i].active = true ↔
          ∀ q ∈ ps.drop (i + 1), q.title ≠ "files")) ∧
      (ps[i].title = "response" → ¬(jsTrim ps[i].text = "") →
        ∃ a b, renderOutput false width (markActive false ps)
          = a ++ (("💬 Response:\n\n" ++ trimStart ps[i].text ++ "\n\n") ++ b)) := by
  intro ps width i hi hm
  have hm' : i < (markActiveAux false ps).1.length := by
    rw [markActiveAux_length]
    exact hi
  have hkey := markActiveAux_get false ps i hi hm'
  have hget : (markActive false ps)[i] = (markActiveAux false ps).1[i] := rfl
  refine ⟨?_, ?_, ?_⟩
  · intro hresp
    rw [hget, hkey, visStep_response ps[i] _ _ hresp]
  · intro hfiles
    rw [hget, hkey, visStep_files ps[i] _ _ hfiles]
    have hff := markActiveAux_ff (ps.drop (i + 1))
    constructor
    · intro hactive q hq habs
      have : (ps.drop (i + 1)).any (fun p => p.title = "files") = true :=
        List.any_eq_true.mpr ⟨q, hq, by simp [habs]⟩
      rw [this] at hff
      simp only at hactive
      rw [hff] at hactive
      simp at hactive
    · intro hnone
      have : (ps.drop (i + 1)).any (fun p => p.title = "files") = false := by
        rw [List.any_eq_false]
        intro q hq
        simp [hnone q hq]
      rw [this] at hff
      simp only
      rw [hff]
      decide
  · intro hresp htext
    have hactive : (markActive false ps)[i].active = true := by
      rw [hget, hkey, visStep_response ps[i] _ _ hresp]
    have htt := markActive_get_tt false ps i hi hm
    have htext' : ¬(jsTrim (markActive false ps)[i].text = "") := by
      rw [htt.2]
      exact htext
    obtain ⟨a, b, hab⟩ := partsOutput_elem false width (markActive false ps) i hm
      hactive htext'
    refine ⟨a, b, ?_⟩
    have hfmt : formatPart false width (markActive false ps)[i]
        = "💬 Response:\n\n" ++ trimStart ps[i].text ++ "\n\n" := by
      have h1 : ¬((markActive false ps)[i].title = "thinking") := by
        rw [htt.1, hresp]; decide
      have h2 : (markActive false ps)[i].title = "response" := by
        rw [htt.1, hresp]
      rw [formatPart, if_neg h1, if_pos h2, htt.2]
    have hro : renderOutput false width (markActive false ps)
        = partsOutput false width (markActive false ps) := by
      rw [renderOutput, if_neg (by simp : ¬(false : Bool) = true), String.empty_append]
    rw [hro, hab, hfmt]

theorem response_active_files_latest_wins_witness :
    ((markActive false [⟨"response", "ok", false⟩]).get ⟨0, by decide⟩).active = true := by
  have h := (response_active_files_latest_wins [⟨"response", "ok", false⟩] 80 0
    (by decide) (by decide)).1 rfl
  exact h

/-- C5 counterexample: on a state holding two non-empty files parts, the
non-detailed visibility pass marks the first one inactive (files parts
are latest-wins), contradicting the claim that every non-empty files
part is marked active. -/
theorem files_part_suppressed_counterexample :
    ((markActive false
        [⟨"files", "fileA", false⟩, ⟨"files", "fileB", false⟩]).map fun p => p.active)
      = [false, true] := by decide

/-- C8: wrapping the empty string yields exactly one empty line, at any
positive width. -/
theorem wrapText_empty :
    ∀ (width : Nat), 0 < width → wrapText "" width = [""] := by
  intro width _
  rfl

theorem wrapText_empty_witness : 0 < 17 ∧ wrapText "" 17 = [""] :=
  ⟨by decide, wrapText_empty 17 (by decide)⟩

/-- The backwards search leaves a list without thinking parts alone. -/
theorem appendToLastThinkingRev_none (d : String) (l : List Part)
    (h : ∀ p ∈ l, ¬p.title = "thinking") : appendToLastThinkingRev d l = l := by
  induction l with
  | nil => rfl
  | cons p t ih =>
    rw [appendToLastThinkingRev, if_neg (h p (List.mem_cons_self p t))]
    rw [ih fun q hq => h q (List.mem_cons_of_mem p hq)]

theorem appendToLastThinking_none (d : String) (ps : List Part)
    (h : ∀ p ∈ ps, ¬p.title = "thinking") : appendToLastThinking d ps = ps := by
  rw [appendToLastThinking, appendToLastThinkingRev_none d ps.reverse
    (fun p hp => h p (List.mem_reverse.mp hp)), List.reverse_reverse]

/-- When the last thinking part is the final element, the delta lands on
it. -/
theorem appendToLastThinking_last (d t : String) (a : Bool) (xs : List Part) :
    appendToLastThinking d (xs ++ [⟨"thinking", t, a⟩])
      = xs ++ [⟨"thinking", t ++ d, a⟩] := by
  rw [appendToLastThinking, List.reverse_append]
  simp only [List.reverse_cons, List.reverse_nil, List.nil_append, List.singleton_append]
  rw [appendToLastThinkingRev, if_pos rfl]
  simp

/-- Appending to the first response part when none precedes it. -/
theorem appendToFirstResponse_append (d : String) (xs : List Part) (p : Part)
    (h : ∀ q ∈ xs, ¬q.title = "response") (hp : p.title = "response") :
    appendToFirstResponse d (xs ++ [p]) = xs ++ [{ p with text := p.text ++ d }] := by
  induction xs with
  | nil =>
    simp only [List.nil_append, List.singleton_append]
    rw [appendToFirstResponse, if_pos hp]
  | cons q t ih =>
    simp only [List.cons_append]
    rw [appendToFirstResponse, if_neg (h q (List.mem_cons_self q t))]
    rw [ih fun r hr => h r (List.mem_cons_of_mem q hr)]

/-- C4 (amended): a text (answer) delta for an unseen key appends a
fresh empty response part and the delta is then appended to the first
response part of the sequence — so when no response part existed, the
new part's text equals exactly the delta. A reasoning (thinking) delta,
however, is appended to the most recent thinking part and is silently
dropped when no thinking part exists (thinking parts are created by
step-start events, not by deltas). -/
theorem delta_application :
    (∀ (width : Nat) (partKey : String) (ptext : Option String) (d : String)
        (seen : List String) (st : State),
      ¬(d = "") → ¬(partKey ∈ seen) →
      (∀ p ∈ st.accumulatedResponse, ¬p.title = "response") →
      ((processText width partKey ptext (some d) seen st).2.accumulatedResponse.map
          fun p => (p.title, p.text))
        = (st.accumulatedResponse.map fun p => (p.title, p.text)) ++ [("response", d)]) ∧
    (∀ (width : Nat) (d : String) (st : State),
      (∀ p ∈ st.accumulatedResponse, ¬p.title = "thinking") →
      ((processReasoning width (some d) st).accumulatedResponse.map
          fun p => (p.title, p.text))
        = st.accumulatedResponse.map fun p => (p.title, p.text)) ∧
    (∀ (width : Nat) (d t : String) (a : Bool) (xs : List Part) (st : State),
      ¬(d = "") →
      st.accumulatedResponse = xs ++ [⟨"thinking", t, a⟩] →
      ((processReasoning width (some d) st).accumulatedResponse.map
          fun p => (p.title, p.text))
        = (xs.map fun p => (p.title, p.text)) ++ [("thinking", t ++ d)]) := by
  refine ⟨?_, ?_, ?_⟩
  · intro width partKey ptext d seen st hd hk hnone
    have htruthy : truthy (some d) = true := by
      simp [truthy, hd]
    have hcont : seen.contains partKey = false := by
      simp only [List.contains, List.elem_eq_mem, decide_eq_false_iff_not]
      exact hk
    have happ : appendToFirstResponse d
        (st.accumulatedResponse ++ [⟨"response", "", false⟩])
        = st.accumulatedResponse ++ [⟨"response", d, false⟩] := by
      have h0 := appendToFirstResponse_append d st.accumulatedResponse
        ⟨"response", "", false⟩ hnone rfl
      simpa using h0
    simp only [processText, htruthy, hcont, Bool.not_false, Bool.true_and, if_true,
      Option.getD_some]
    rw [happ, render_map_tt]
    simp
  · intro width d st hnone
    by_cases hd : truthy (some d) = true
    · simp only [processReasoning, hd, if_true, Option.getD_some]
      rw [appendToLastThinking_none d st.accumulatedResponse hnone]
      rw [render_map_tt]
    · simp only [processReasoning]
      rw [if_neg hd]
  · intro width d t a xs st hd hacc
    have htruthy : truthy (some d) = true := by
      simp [truthy, hd]
    simp only [processReasoning, htruthy, if_true, Option.getD_some]
    rw [hacc, appendToLastThinking_last]
    rw [render_map_tt]
    simp

theorem delta_application_witness :
    ((processText 80 "k1" none (some "hello") [] ⟨0, []⟩).2.accumulatedResponse.map
        fun p => (p.title, p.text))
      = [("response", "hello")] := by
  have h := delta_application.1 80 "k1" none "hello" [] ⟨0, []⟩ (by decide)
    (by simp) (by simp)
  simpa using h

/-- C4 counterexample: a reasoning delta arriving when no thinking part
has been accumulated is dropped — no part is created, so the claim that
the accumulator creates the part and stores exactly the delta fails. -/
theorem reasoning_delta_dropped_counterexample :
    (processReasoning 80 (some "hi") ⟨0, []⟩).accumulatedResponse = [] := by decide

/-- C6 (amended): a tool-invocation event always appends a new tool
part, even when the most recent accumulated part is also a tool part; a
consecutive run of tool events therefore leaves one tool entry per
event, not a single overwritten entry. -/
theorem toolUse_appends :
    ∀ (width : Nat) (name : Option String) (st : State),
      ((processToolUse width name st).accumulatedResponse.map fun p => (p.title, p.text))
        = (st.accumulatedResponse.map fun p => (p.title, p.text))
          ++ [("tool", "🔧 Using tool: " ++ (if truthy name then name.getD "" else "unknown"))] := by
  intro width name st
  simp only [processToolUse]
  rw [render_map_tt]
  simp

/-- C6 counterexample: with the most recent part a tool part, a new tool
event leaves two tool entries (the old text intact), not one overwritten
entry. -/
theorem tool_event_appends_counterexample :
    ((processToolUse 80 (some "bash")
        ⟨0, [⟨"tool", "🔧 Using tool: read", false⟩]⟩).accumulatedResponse.map
        fun p => (p.title, p.text))
      = [("tool", "🔧 Using tool: read"), ("tool", "🔧 Using tool: bash")] := by decide

/-- C7 (amended): a non-empty diff event always appends exactly one new
files part holding the formatted summary, with no comparison against any
previously recorded summary; deduplication of the display happens only
through the latest-files-wins visibility rule at render time. -/
theorem processDiff_always_appends :
    ∀ (width : Nat) (files : List DiffInfo) (st : State), files ≠ [] →
      ((processDiff width (some files) st).accumulatedResponse.map
          fun p => (p.title, p.text))
        = (st.accumulatedResponse.map fun p => (p.title, p.text))
          ++ [("files", jsTrim (String.join (files.map fun f => diffLine f ++ "\n")))] := by
  intro width files st hne
  have hpos : files.length > 0 := List.length_pos.mpr hne
  simp only [processDiff, hpos, if_true]
  rw [render_map_tt]
  simp

theorem processDiff_always_appends_witness :
    ((processDiff 80 (some [⟨"a.ts", "added", 2, 0⟩]) ⟨0, []⟩).accumulatedResponse.map
        fun p => (p.title, p.text))
      = [("files", jsTrim (String.join ([(⟨"a.ts", "added", 2, 0⟩ : DiffInfo)].map
          fun f => diffLine f ++ "\n")))] := by
  have h := processDiff_always_appends 80 [⟨"a.ts", "added", 2, 0⟩] ⟨0, []⟩ (by decide)
  simpa using h

/-- C7 counterexample: two consecutive identical diff events append two
files parts, not one. -/
theorem diff_dedup_counterexample :
    (processDiff 80 (some [⟨"a.ts", "modified", 1, 0⟩])
        (processDiff 80 (some [⟨"a.ts", "modified", 1, 0⟩]) ⟨0, []⟩)).accumulatedResponse.length
      = 2 := by decide

/-- The line-break scan only ever appends to its break accumulator. -/
theorem thinkScan_breaks (w : Nat) :
    ∀ (cs : List Char) (i lc col : Nat) (acc : List Nat),
      ∃ l, (thinkScan w cs i lc col acc).2.2 = acc ++ l := by
  intro cs
  induction cs with
  | nil =>
    intro i lc col acc
    exact ⟨[], by simp [thinkScan]⟩
  | cons c rest ih =>
    intro i lc col acc
    by_cases hn : c = '\n'
    · obtain ⟨l, hl⟩ := ih (i + 1) (lc + 1) 0 (acc ++ [i + 1])
      refine ⟨[i + 1] ++ l, ?_⟩
      rw [thinkScan, if_pos hn, hl]
      simp
    · by_cases hr : c = '\r'
      · obtain ⟨l, hl⟩ := ih (i + 1) lc col acc
        refine ⟨l, ?_⟩
        rw [thinkScan, if_neg hn, if_pos hr, hl]
      · by_cases hw : w ≤ col + 1
        · obtain ⟨l, hl⟩ := ih (i + 1) (lc + 1) 0 (acc ++ [i])
          refine ⟨[i] ++ l, ?_⟩
          rw [thinkScan, if_neg hn, if_neg hr]
          simp only [if_pos hw]
          rw [hl]
          simp
        · obtain ⟨l, hl⟩ := ih (i + 1) lc (col + 1) acc
          refine ⟨l, ?_⟩
          rw [thinkScan, if_neg hn, if_neg hr]
          simp only [if_neg hw]
          rw [hl]

/-- C9: in non-detailed mode the painted thinking block contains
`lastThinkingLines` of the part's (left-trimmed) text — the suffix of
the text starting at the tenth-from-last recorded line break of the
ANSI-stripped text wrapped at the console width — while detailed mode
paints the whole trimmed text; `lastThinkingLines` always returns a
suffix of its input, returns the whole text when at most ten breaks were
recorded, and `render` never modifies any part's stored text. -/
theorem thinking_truncation :
    (∀ (details : Bool) (width : Nat) (p : Part), p.title = "thinking" →
      formatPart details width p
        = "💭 " ++ BRIGHT_BLACK ++ "Thinking...\n\n" ++
          (if details then trimStart p.text else lastThinkingLines width (trimStart p.text))
          ++ RESET ++ "\n\n") ∧
    (∀ (width : Nat) (t : String), List.IsSuffix (lastThinkingLines width t).data t.data) ∧
    (∀ (width : Nat) (t : String), (thinkLineBreaks width t).length ≤ 10 →
      lastThinkingLines width t = t) ∧
    (∀ (width : Nat) (details : Bool) (st : State),
      ((render width details st).state.accumulatedResponse).map (fun p => p.text)
        = st.accumulatedResponse.map fun p => p.text) := by
  refine ⟨?_, ?_, ?_, ?_⟩
  · intro details width p h
    rw [formatPart, if_pos h]
  · intro width t
    exact List.drop_suffix _ _
  · intro width t hlen
    rw [lastThinkingLines]
    have hidx : (thinkLineBreaks width t).length - 10 = 0 := by omega
    rw [hidx]
    obtain ⟨l, hl⟩ := thinkScan_breaks (if width = 0 then 80 else width)
      (stripAnsi t.data) 0 0 0 [0]
    have hbr : thinkLineBreaks width t = 0 :: l := by
      rw [thinkLineBreaks, hl]
      rfl
    rw [hbr]
    simp only [List.getD_cons_zero, List.drop_zero]
  · intro width details st
    have h := render_map_tt width details st
    have h2 := congrArg (List.map Prod.snd) h
    simpa [List.map_map, Function.comp] using h2

theorem thinking_truncation_witness :
    formatPart false 80 ⟨"thinking", "abc", true⟩
      = "💭 " ++ BRIGHT_BLACK ++ "Thinking...\n\n" ++
        (if false then trimStart "abc" else lastThinkingLines 80 (trimStart "abc"))
        ++ RESET ++ "\n\n" :=
  thinking_truncation.1 false 80 ⟨"thinking", "abc", true⟩ rfl

/-- A successful SGR match starts with the escape character. -/
theorem ansiMatch_head {cs m r : List Char} (h : ansiMatch cs = some (m, r)) :
    ∃ t, cs = '\x1b' :: t := by
  obtain ⟨hsplit, _⟩ := ansiMatch_some_append h
  obtain ⟨ps, hshape, _⟩ := ansiMatch_shape h
  rw [hshape] at hsplit
  exact ⟨'[' :: (ps ++ ['m']) ++ r, by simpa using hsplit⟩

/-- Stripping ANSI codes from an escape-free string is the identity. -/
theorem stripAnsiF_no_esc :
    ∀ (fuel : Nat) (cs : List Char), (∀ c ∈ cs, ¬c = '\x1b') → stripAnsiF fuel cs = cs := by
  intro fuel
  induction fuel with
  | zero => intro cs _; rfl
  | succ fuel ih =>
    intro cs h
    match cs with
    | [] => rfl
    | c :: rest =>
      cases hm : ansiMatch (c :: rest) with
      | some mr =>
        exfalso
        obtain ⟨m, r⟩ := mr
        obtain ⟨t, ht⟩ := ansiMatch_head hm
        have : c = '\x1b' := by
          injection ht
        exact h c (List.mem_cons_self c rest) this
      | none =>
        simp only [stripAnsiF, hm]
        rw [ih rest fun x hx => h x (List.mem_cons_of_mem c hx)]

/-- On an escape-free, separator-free word the scanner's visible length
is the word length. -/
theorem scanWord_vis_plain :
    ∀ (n : Nat) (w : List Char), w.length ≤ n → (∀ c ∈ w, ¬c = '\x1b') →
      (∀ c ∈ w, isSep c = false) → ∀ fuel, w.length ≤ fuel →
      (scanWordF fuel w).2.1 = w.length := by
  intro n
  induction n with
  | zero =>
    intro w hw _ _ fuel _
    have : w = [] := List.length_eq_zero.mp (Nat.le_zero.mp hw)
    subst this
    cases fuel <;> rfl
  | succ n ih =>
    intro w hwn hesc hsep fuel hfuel
    match w with
    | [] => cases fuel <;> rfl
    | c :: w' =>
      match fuel, hfuel with
      | fuel + 1, hfuel =>
      have hcsep : isSep c = false := hsep c (List.mem_cons_self c w')
      have hcesc : ¬c = '\x1b' := hesc c (List.mem_cons_self c w')
      have hcond : (c = '\x1b' && w'.head? = some '[') = false := by
        simp [hcesc]
      rcases hsw : scanWordF fuel w' with ⟨w₃, v₃, r₃⟩
      have hres : scanWordF (fuel + 1) (c :: w') = (c :: w₃, v₃ + 1, r₃) := by
        simp only [scanWordF]
        rw [hcsep]
        simp only [Bool.false_eq_true, if_false]
        rw [hcond]
        simp only [Bool.false_eq_true, if_false]
        rw [hsw]
      rw [hres]
      have hw'n : w'.length ≤ n := by
        simp only [List.length_cons] at hwn
        omega
      have hv := ih w' hw'n (fun x hx => hesc x (List.mem_cons_of_mem c hx))
        (fun x hx => hsep x (List.mem_cons_of_mem c hx)) fuel
        (by simp only [List.length_cons] at hfuel; omega)
      rw [hsw] at hv
      have hv' : v₃ = w'.length := hv
      show v₃ + 1 = (c :: w').length
      simp only [List.length_cons]
      omega

/-- On escape-free input the segment loop takes exactly the next
`width - v` characters. -/
theorem takeSegmentF_plain (width : Nat) :
    ∀ (fuel : Nat) (cs : List Char), cs.length ≤ fuel → (∀ c ∈ cs, ¬c = '\x1b') →
      ∀ (acc : List Char) (v : Nat),
      takeSegmentF width fuel cs acc v
        = (acc ++ cs.take (width - v), v + min (width - v) cs.length, cs.drop (width - v)) := by
  intro fuel
  induction fuel with
  | zero =>
    intro cs hcs _ acc v
    have : cs = [] := List.length_eq_zero.mp (Nat.le_zero.mp hcs)
    subst this
    simp [takeSegmentF]
  | succ fuel ih =>
    intro cs hcs hesc acc v
    match cs with
    | [] => simp [takeSegmentF]
    | c :: rest =>
      by_cases hv : width ≤ v
      · have h0 : width - v = 0 := by omega
        have hres : takeSegmentF width (fuel + 1) (c :: rest) acc v = (acc, v, c :: rest) := by
          simp [takeSegmentF, hv]
        rw [hres, h0]
        simp
      · have hcesc : ¬c = '\x1b' := hesc c (List.mem_cons_self c rest)
        have hcond : (c = '\x1b' && rest.head? = some '[') = false := by
          simp [hcesc]
        have hm : ansiMatch (c :: rest) = none := by
          cases hm0 : ansiMatch (c :: rest) with
          | none => rfl
          | some mr =>
            exfalso
            obtain ⟨t, ht⟩ := ansiMatch_head hm0
            have : c = '\x1b' := by injection ht
            exact hcesc this
        have hres : takeSegmentF width (fuel + 1) (c :: rest) acc v
            = takeSegmentF width fuel rest (acc ++ [c]) (v + 1) := by
          simp only [takeSegmentF]
          rw [if_neg hv, hcond]
          simp only [Bool.false_eq_true, if_false]
        rw [hres, ih rest (by simp only [List.length_cons] at hcs; omega)
          (fun x hx => hesc x (List.mem_cons_of_mem c hx)) (acc ++ [c]) (v + 1)]
        have hk : width - v = (width - (v + 1)) + 1 := by omega
        refine congrArg₂ _ ?_ (congrArg₂ _ ?_ ?_)
        · rw [hk, List.take_succ_cons]
          simp
        · simp only [List.length_cons]
          omega
        · rw [hk, List.drop_succ_cons]

/-- On escape-free input the hard-split loop keeps every produced line
within the width bound (or whitespace-free), and the visible length in
sync with the current line. -/
theorem hardSplitF_plain (width : Nat) :
    ∀ (fuel : Nat) (cs : List Char) (st : WrapState), (∀ c ∈ cs, ¬c = '\x1b') →
      (∀ l ∈ st.lines, l.length ≤ width ∨ ∀ c ∈ l, isSep c = false) →
      st.visibleLength = st.currentLine.length →
      (st.currentLine.length ≤ width ∨ ∀ c ∈ st.currentLine, isSep c = false) →
      (∀ l ∈ (hardSplitF width fuel cs st).lines,
        l.length ≤ width ∨ ∀ c ∈ l, isSep c = false) ∧
      (hardSplitF width fuel cs st).visibleLength
        = (hardSplitF width fuel cs st).currentLine.length ∧
      ((hardSplitF width fuel cs st).currentLine.length ≤ width ∨
        ∀ c ∈ (hardSplitF width fuel cs st).currentLine, isSep c = false) := by
  intro fuel
  induction fuel with
  | zero => intro cs st _ h1 h2 h3; exact ⟨h1, h2, h3⟩
  | succ fuel ih =>
    intro cs st hesc h1 h2 h3
    match cs with
    | [] => exact ⟨h1, h2, h3⟩
    | c :: rest =>
      have hts : takeSegmentF width (c :: rest).length (c :: rest) [] 0
          = ((c :: rest).take width, min width (c :: rest).length,
              (c :: rest).drop width) := by
        have h0 := takeSegmentF_plain width (c :: rest).length (c :: rest)
          (Nat.le_refl _) hesc [] 0
        simpa using h0
      simp only [List.length_cons] at hts
      have hseglen : ((c :: rest).take width).length = min width (c :: rest).length :=
        List.length_take width (c :: rest)
      by_cases hempty : (c :: rest).take width = []
      · have hres : hardSplitF width (fuel + 1) (c :: rest) st = st := by
          simp [hardSplitF, hts, hempty]
        rw [hres]
        exact ⟨h1, h2, h3⟩
      · have hrest_esc : ∀ x ∈ (c :: rest).drop width, ¬x = '\x1b' :=
          fun x hx => hesc x (List.mem_of_mem_drop hx)
        have hsegw : ((c :: rest).take width).length ≤ width := by
          rw [hseglen]
          exact Nat.min_le_left _ _
        have hsegvis : min width (c :: rest).length = ((c :: rest).take width).length :=
          hseglen.symm
        by_cases hcur : st.currentLine = []
        · have hres : hardSplitF width (fuel + 1) (c :: rest) st
              = hardSplitF width fuel ((c :: rest).drop width)
                ⟨st.lines, (c :: rest).take width, min width (c :: rest).length⟩ := by
            simp [hardSplitF, hts, hempty, hcur]
          rw [hres]
          exact ih ((c :: rest).drop width) _ hrest_esc h1 hsegvis (Or.inl hsegw)
        · have hres : hardSplitF width (fuel + 1) (c :: rest) st
              = hardSplitF width fuel ((c :: rest).drop width)
                ⟨st.lines ++ [st.currentLine], (c :: rest).take width,
                  min width (c :: rest).length⟩ := by
            simp [hardSplitF, hts, hempty, hcur]
          rw [hres]
          refine ih ((c :: rest).drop width) _ hrest_esc ?_ hsegvis (Or.inl hsegw)
          intro l hl
          rcases List.mem_append.mp hl with hl2 | hl2
          · exact h1 l hl2
          · simp only [List.mem_singleton] at hl2
            rw [hl2]
            exact h3

/-- `addWord` on an escape-free, separator-free word (whose visible
length is its length) preserves the width-bound invariant. -/
theorem addWord_plain (width : Nat) (word : List Char) (st : WrapState)
    (hesc : ∀ c ∈ word, ¬c = '\x1b') (hsep : ∀ c ∈ word, isSep c = false)
    (h1 : ∀ l ∈ st.lines, l.length ≤ width ∨ ∀ c ∈ l, isSep c = false)
    (h2 : st.visibleLength = st.currentLine.length)
    (h3 : st.currentLine.length ≤ width ∨ ∀ c ∈ st.currentLine, isSep c = false) :
    (∀ l ∈ (addWord width word word.length st).lines,
      l.length ≤ width ∨ ∀ c ∈ l, isSep c = false) ∧
    (addWord width word word.length st).visibleLength
      = (addWord width word word.length st).currentLine.length ∧
    ((addWord width word word.length st).currentLine.length ≤ width ∨
      ∀ c ∈ (addWord width word word.length st).currentLine, isSep c = false) := by
  have hpush : ∀ l ∈ st.lines ++ [st.currentLine],
      l.length ≤ width ∨ ∀ c ∈ l, isSep c = false := by
    intro l hl
    rcases List.mem_append.mp hl with hl2 | hl2
    · exact h1 l hl2
    · simp only [List.mem_singleton] at hl2
      rw [hl2]
      exact h3
  simp only [addWord]
  by_cases h0 : (word.isEmpty || word.length == 0) = true
  · rw [if_pos h0]
    exact ⟨h1, h2, h3⟩
  · rw [if_neg h0]
    have hwne : ¬word.length = 0 := by
      simp only [Bool.or_eq_true, beq_iff_eq, List.isEmpty_iff] at h0
      push_neg at h0
      exact h0.2
    by_cases hfit : fits width word.length st.visibleLength = true
    · rw [if_pos hfit]
      by_cases hvis : 0 < st.visibleLength
      · rw [if_pos hvis]
        have hle : st.visibleLength + 1 + word.length ≤ width := by
          rw [fits, if_neg (by omega)] at hfit
          simpa using hfit
        refine ⟨h1, ?_, Or.inl ?_⟩
        · simp [h2]
          omega
        · simp
          omega
      · rw [if_neg hvis]
        have hcur0 : st.currentLine = [] := by
          have : st.visibleLength = 0 := by omega
          rw [this] at h2
          exact (List.length_eq_zero.mp h2.symm)
        have hle : word.length ≤ width := by
          rw [fits, if_pos (by omega)] at hfit
          simpa using hfit
        refine ⟨h1, ?_, Or.inl ?_⟩
        · simp [hcur0, h2]
        · simp [hcur0]
          omega
    · rw [if_neg hfit]
      by_cases hvis : 0 < st.visibleLength
      · rw [if_pos hvis]
        exact ⟨hpush, rfl, Or.inr hsep⟩
      · rw [if_neg hvis]
        by_cases hwv : word.length ≤ width
        · rw [if_pos hwv]
          exact ⟨h1, rfl, Or.inl hwv⟩
        · rw [if_neg hwv]
          exact hardSplitF_plain width word.length word st hesc h1 h2 h3

/-- The main loop on escape-free input keeps every line within the
width bound or whitespace-free. -/
theorem wrapLoopF_plain (width : Nat) :
    ∀ (n : Nat) (cs : List Char), cs.length ≤ n → (∀ c ∈ cs, ¬c = '\x1b') →
      ∀ (st : WrapState) (fuel : Nat), cs.length ≤ fuel →
      (∀ l ∈ st.lines, l.length ≤ width ∨ ∀ c ∈ l, isSep c = false) →
      st.visibleLength = st.currentLine.length →
      (st.currentLine.length ≤ width ∨ ∀ c ∈ st.currentLine, isSep c = false) →
      (∀ l ∈ (wrapLoopF width fuel cs st).lines,
        l.length ≤ width ∨ ∀ c ∈ l, isSep c = false) ∧
      (wrapLoopF width fuel cs st).visibleLength
        = (wrapLoopF width fuel cs st).currentLine.length ∧
      ((wrapLoopF width fuel cs st).currentLine.length ≤ width ∨
        ∀ c ∈ (wrapLoopF width fuel cs st).currentLine, isSep c = false) := by
  intro n
  induction n with
  | zero =>
    intro cs hcs hesc st fuel hfuel h1 h2 h3
    have : cs = [] := List.length_eq_zero.mp (Nat.le_zero.mp hcs)
    subst this
    cases fuel <;> exact ⟨h1, h2, h3⟩
  | succ n ih =>
    intro cs hcs hesc st fuel hfuel h1 h2 h3
    match cs with
    | [] => cases fuel <;> exact ⟨h1, h2, h3⟩
    | c :: rest =>
      match fuel, hfuel with
      | fuel + 1, hfuel =>
      have hpush : ∀ l ∈ st.lines ++ [st.currentLine],
          l.length ≤ width ∨ ∀ c ∈ l, isSep c = false := by
        intro l hl
        rcases List.mem_append.mp hl with hl2 | hl2
        · exact h1 l hl2
        · simp only [List.mem_singleton] at hl2
          rw [hl2]
          exact h3
      have hrest : rest.length ≤ n := by
        simp only [List.length_cons] at hcs
        omega
      have hfr : rest.length ≤ fuel := by
        simp only [List.length_cons] at hfuel
        omega
      have hrest_esc : ∀ x ∈ rest, ¬x = '\x1b' :=
        fun x hx => hesc x (List.mem_cons_of_mem c hx)
      by_cases hn : c = '\n'
      · simp only [wrapLoopF, hn, if_true]
        exact ih rest hrest hrest_esc (pushLine st) fuel hfr hpush rfl
          (Or.inl (by simp [pushLine]))
      · by_cases hcr : c = '\r'
        · simp only [wrapLoopF, hn, if_false, hcr, if_true]
          exact ih rest hrest hrest_esc st fuel hfr h1 h2 h3
        · by_cases hspc : (c = ' ' || c = '\t') = true
          · simp only [wrapLoopF, hn, if_false, hcr, hspc, if_true]
            exact ih rest hrest hrest_esc st fuel hfr h1 h2 h3
          · have hcsep : isSep c = false := by
              simp only [Bool.or_eq_true, decide_eq_true_eq] at hspc
              simp only [isSep, Bool.or_eq_false_iff, decide_eq_false_iff_not]
              push_neg at hspc
              exact ⟨⟨⟨hn, hcr⟩, hspc.1⟩, hspc.2⟩
            rcases hsw : scanWord (c :: rest) with ⟨w, v, r⟩
            have hres : wrapLoopF width (fuel + 1) (c :: rest) st =
                wrapLoopF width fuel r (addWord width w v st) := by
              simp [wrapLoopF, hn, hcr, hspc, hsw]
            rw [hres]
            obtain ⟨hsplit, hwsep, _, hvis⟩ := scanWord_char_split hsw
            have hwesc : ∀ x ∈ w, ¬x = '\x1b' := by
              intro x hx
              refine hesc x ?_
              rw [hsplit]
              exact List.mem_append_left r hx
            have hresc : ∀ x ∈ r, ¬x = '\x1b' := by
              intro x hx
              refine hesc x ?_
              rw [hsplit]
              exact List.mem_append_right w hx
            have hveq : v = w.length := by
              rw [hvis]
              exact scanWord_vis_plain w.length w (Nat.le_refl _) hwesc hwsep
                w.length (Nat.le_refl _)
            rw [hveq]
            obtain ⟨ha1, ha2, ha3⟩ := addWord_plain width w st hwesc hwsep h1 h2 h3
            have hrl := scanWord_rest_lt hcsep hsw
            simp only [List.length_cons] at hrl hcs hfuel
            exact ih r (by omega) hresc (addWord width w w.length st) fuel (by omega)
              ha1 ha2 ha3

/-- Every line of `wrapText` on escape-free input either fits the width
or is a single whitespace-free word. -/
theorem wrapText_good (s : String) (width : Nat) (hesc : ∀ c ∈ s.data, ¬c = '\x1b') :
    ∀ l ∈ wrapText s width, l.data.length ≤ width ∨ ∀ c ∈ l.data, isSep c = false := by
  intro l hl
  unfold wrapText at hl
  obtain ⟨hl1, _, hl3⟩ := wrapLoopF_plain width s.data.length s.data (Nat.le_refl _) hesc
    ⟨[], [], 0⟩ s.data.length (Nat.le_refl _) (by simp) rfl (Or.inl (by simp))
  set st := wrapLoopF width s.data.length s.data ⟨[], [], 0⟩ with hst
  simp only at hl
  by_cases hc : (!st.currentLine.isEmpty || st.lines.isEmpty) = true
  · rw [if_pos hc] at hl
    simp only [pushLine, List.map_append, List.map_cons, List.map_nil] at hl
    rcases List.mem_append.mp hl with hl4 | hl4
    · obtain ⟨l0, hl0, rfl⟩ := List.mem_map.mp hl4
      exact hl1 l0 hl0
    · simp only [List.mem_singleton] at hl4
      rw [hl4]
      exact hl3
  · rw [if_neg hc] at hl
    obtain ⟨l0, hl0, rfl⟩ := List.mem_map.mp hl
    exact hl1 l0 hl0

/-- C3 (amended): for every escape-free input and positive width, every
line returned by `wrapText` either has visible (ANSI-stripped) length at
most the width, or exceeds it while containing no whitespace — it is a
single unbroken word (an over-wide word that follows existing content on
the current line is emitted on its own line without being hard-split).
The specific example holds as stated. -/
theorem wrapText_width_bound :
    (∀ (s : String) (width : Nat), 0 < width → (∀ c ∈ s.data, ¬c = '\x1b') →
      ∀ l ∈ wrapText s width,
        (stripAnsiStr l).length ≤ width ∨
          (width < (stripAnsiStr l).length ∧ ∀ c ∈ l.data, isSep c = false)) ∧
    wrapText "hello world this is a long text" 10
      = ["hello", "world this", "is a long", "text"] := by
  refine ⟨?_, by decide⟩
  intro s width _ hesc l hl
  have hescL := wrapText_chars (fun c => ¬c = '\x1b') s width (by decide)
    (fun x hx _ => hesc x hx) l hl
  have hid : stripAnsiStr l = l := by
    unfold stripAnsiStr stripAnsi
    rw [stripAnsiF_no_esc _ _ hescL]
  rw [hid]
  have hgood := wrapText_good s width hesc l hl
  rcases hgood with hgood | hgood
  · exact Or.inl hgood
  · by_cases hlen : l.data.length ≤ width
    · exact Or.inl hlen
    · refine Or.inr ⟨?_, hgood⟩
      have hld : l.length = l.data.length := rfl
      omega

theorem wrapText_width_bound_witness :
    (stripAnsiStr "aa").length ≤ 3 ∨
      (3 < (stripAnsiStr "aa").length ∧ ∀ c ∈ ("aa" : String).data, isSep c = false) :=
  wrapText_width_bound.1 "aa bb" 3 (by decide) (by decide) "aa" (by decide)

/-- C3 counterexample: a word longer than the width that arrives while
the current line is non-empty is emitted whole: `wrapText "a 123456" 3`
returns the line `"123456"`, whose visible length 6 exceeds the width 3. -/
theorem wrapText_overwide_counterexample :
    wrapText "a 123456" 3 = ["a", "123456"] ∧ ¬((stripAnsiStr "123456").length ≤ 3) := by
  decide

theorem tokLoop_nil : tokLoop [] = [] := rfl

theorem tokLoop_newline (rest : List Char) :
    tokLoop ('\n' :: rest) = WrapToken.nl :: tokLoop rest := by
  show tokLoopF (rest.length + 1) ('\n' :: rest) = _
  simp [tokLoopF, tokLoop]

theorem tokLoop_skip {c : Char} (rest : List Char) (hn : ¬c = '\n')
    (hsk : c = '\r' ∨ c = ' ' ∨ c = '\t') : tokLoop (c :: rest) = tokLoop rest := by
  show tokLoopF (rest.length + 1) (c :: rest) = _
  rcases hsk with rfl | rfl | rfl
  · simp [tokLoopF, tokLoop]
  · simp [tokLoopF, tokLoop]
  · simp [tokLoopF, tokLoop]

theorem tokLoop_word {c : Char} {rest w : List Char} {v : Nat} {r : List Char}
    (hc : isSep c = false) (hsw : scanWord (c :: rest) = (w, v, r)) :
    tokLoop (c :: rest) = WrapToken.word w v :: tokLoop r := by
  have hn : ¬c = '\n' := by
    intro habs
    rw [habs] at hc
    exact absurd hc (by simp [isSep])
  have hcr : ¬c = '\r' := by
    intro habs
    rw [habs] at hc
    exact absurd hc (by simp [isSep])
  have hspc : ¬(c = ' ' || c = '\t') = true := by
    intro habs
    simp only [Bool.or_eq_true, decide_eq_true_eq] at habs
    rcases habs with habs | habs <;> rw [habs] at hc <;> exact absurd hc (by simp [isSep])
  have hres : tokLoopF (rest.length + 1) (c :: rest)
      = WrapToken.word w v :: tokLoopF rest.length r := by
    simp only [tokLoopF]
    rw [if_neg hn, if_neg hcr, if_neg hspc, hsw]
  show tokLoopF (rest.length + 1) (c :: rest) = _
  rw [hres]
  have hrl := scanWord_rest_lt hc hsw
  simp only [List.length_cons] at hrl
  rw [tokLoopF_fuel rest.length r (by omega) rest.length r.length (by omega) (Nat.le_refl _)]
  rfl

theorem wrapLoop_step_newline (width : Nat) (rest : List Char) (st : WrapState)
    {fuel : Nat} (hfuel : rest.length ≤ fuel) :
    wrapLoopF width (fuel + 1) ('\n' :: rest) st
      = wrapLoopF width rest.length rest (pushLine st) := by
  simp only [wrapLoopF, if_pos rfl]
  exact wrapLoopF_fuel width rest.length rest (Nat.le_refl _) (pushLine st) fuel rest.length
    hfuel (Nat.le_refl _)

theorem wrapLoop_step_skip (width : Nat) {c : Char} (rest : List Char) (st : WrapState)
    (hn : ¬c = '\n') (hsk : c = '\r' ∨ c = ' ' ∨ c = '\t')
    {fuel : Nat} (hfuel : rest.length ≤ fuel) :
    wrapLoopF width (fuel + 1) (c :: rest) st
      = wrapLoopF width rest.length rest st := by
  have hbase : wrapLoopF width (fuel + 1) (c :: rest) st = wrapLoopF width fuel rest st := by
    rcases hsk with rfl | rfl | rfl
    · simp [wrapLoopF]
    · simp [wrapLoopF]
    · simp [wrapLoopF]
  rw [hbase]
  exact wrapLoopF_fuel width rest.length rest (Nat.le_refl _) st fuel rest.length
    hfuel (Nat.le_refl _)

theorem wrapLoop_step_word (width : Nat) {c : Char} {rest w : List Char} {v : Nat}
    {r : List Char} (st : WrapState) (hc : isSep c = false)
    (hsw : scanWord (c :: rest) = (w, v, r))
    {fuel : Nat} (hfuel : rest.length ≤ fuel) :
    wrapLoopF width (fuel + 1) (c :: rest) st
      = wrapLoopF width r.length r (addWord width w v st) := by
  have hn : ¬c = '\n' := by
    intro habs
    rw [habs] at hc
    exact absurd hc (by simp [isSep])
  have hcr : ¬c = '\r' := by
    intro habs
    rw [habs] at hc
    exact absurd hc (by simp [isSep])
  have hspc : ¬(c = ' ' || c = '\t') = true := by
    intro habs
    simp only [Bool.or_eq_true, decide_eq_true_eq] at habs
    rcases habs with habs | habs <;> rw [habs] at hc <;> exact absurd hc (by simp [isSep])
  have hres : wrapLoopF width (fuel + 1) (c :: rest) st
      = wrapLoopF width fuel r (addWord width w v st) := by
    simp only [wrapLoopF]
    rw [if_neg hn, if_neg hcr, if_neg hspc, hsw]
  rw [hres]
  have hrl := scanWord_rest_lt hc hsw
  simp only [List.length_cons] at hrl
  exact wrapLoopF_fuel width r.length r (Nat.le_refl _) (addWord width w v st) fuel r.length
    (by omega) (Nat.le_refl _)

/-- A stretch of input that produces no tokens (only spaces, tabs and
carriage returns) leaves the wrapping state untouched. -/
theorem wrapLoop_of_tokLoop_nil (width : Nat) :
    ∀ (n : Nat) (cs : List Char), cs.length ≤ n → tokLoop cs = [] →
      ∀ (st : WrapState), wrapLoopF width cs.length cs st = st := by
  intro n
  induction n with
  | zero =>
    intro cs hcs _ st
    have : cs = [] := List.length_eq_zero.mp (Nat.le_zero.mp hcs)
    subst this
    rfl
  | succ n ih =>
    intro cs hcs htok st
    match cs with
    | [] => rfl
    | c :: rest =>
      have hrest : rest.length ≤ n := by
        simp only [List.length_cons] at hcs
        omega
      by_cases hn : c = '\n'
      · exfalso
        rw [hn, tokLoop_newline] at htok
        exact absurd htok (by simp)
      · by_cases hsk : c = '\r' ∨ c = ' ' ∨ c = '\t'
        · rw [tokLoop_skip rest hn hsk] at htok
          show wrapLoopF width (rest.length + 1) (c :: rest) st = st
          rw [wrapLoop_step_skip width rest st hn hsk (Nat.le_refl _)]
          exact ih rest hrest htok st
        · exfalso
          have hc : isSep c = false := by
            simp only [isSep, Bool.or_eq_false_iff, decide_eq_false_iff_not]
            push_neg at hsk
            exact ⟨⟨⟨hn, hsk.1⟩, hsk.2.1⟩, hsk.2.2⟩
          rcases hsw : scanWord (c :: rest) with ⟨w, v, r⟩
          rw [tokLoop_word hc hsw] at htok
          exact absurd htok (by simp)

/-- Processing a separator-free word followed by a separator boundary:
the loop scans exactly the word, adds it, and continues on the
boundary. -/
theorem wrapLoop_word_front (width : Nat) (w : List Char) (hwne : w ≠ [])
    (hwsep : ∀ c ∈ w, isSep c = false) (X : List Char) (hX : sepHead X)
    (v : Nat) (hv : v = (scanWord w).2.1) (st : WrapState) :
    wrapLoopF width (w ++ X).length (w ++ X) st
      = wrapLoopF width X.length X (addWord width w v st) := by
  match w, hwne with
  | whead :: wtail, _ =>
    have hchead : isSep whead = false := hwsep whead (List.mem_cons_self whead wtail)
    have hsw : scanWord (whead :: (wtail ++ X)) = (whead :: wtail, v, X) := by
      show scanWordF (whead :: (wtail ++ X)).length (whead :: (wtail ++ X)) = _
      have hlen : ((whead :: wtail) ++ X).length ≤ (whead :: (wtail ++ X)).length := by
        simp
      have happ := scanWordF_append (whead :: wtail).length (whead :: wtail)
        (Nat.le_refl _) hwsep X hX (whead :: (wtail ++ X)).length hlen
      rw [hv]
      simpa [List.cons_append] using happ
    show wrapLoopF width ((wtail ++ X).length + 1) (whead :: (wtail ++ X)) st
      = wrapLoopF width X.length X (addWord width (whead :: wtail) v st)
    exact wrapLoop_step_word width st hchead hsw (Nat.le_refl _)

/-- The main loop computes the same final state on a string and on its
whitespace-canonical form. -/
theorem wrapLoop_canonical (width : Nat) :
    ∀ (n : Nat) (cs : List Char), cs.length ≤ n → ∀ (st : WrapState),
      wrapLoopF width (renderToks (tokLoop cs)).length (renderToks (tokLoop cs)) st
        = wrapLoopF width cs.length cs st := by
  intro n
  induction n with
  | zero =>
    intro cs hcs st
    have : cs = [] := List.length_eq_zero.mp (Nat.le_zero.mp hcs)
    subst this
    rfl
  | succ n ih =>
    intro cs hcs st
    match cs with
    | [] => rfl
    | c :: rest =>
      have hrest : rest.length ≤ n := by
        simp only [List.length_cons] at hcs
        omega
      by_cases hn : c = '\n'
      · subst hn
        rw [tokLoop_newline]
        rw [show renderToks (WrapToken.nl :: tokLoop rest)
          = '\n' :: renderToks (tokLoop rest) from rfl]
        simp only [List.length_cons]
        rw [wrapLoop_step_newline width (renderToks (tokLoop rest)) st (Nat.le_refl _)]
        rw [wrapLoop_step_newline width rest st (Nat.le_refl _)]
        exact ih rest hrest (pushLine st)
      · by_cases hsk : c = '\r' ∨ c = ' ' ∨ c = '\t'
        · rw [tokLoop_skip rest hn hsk]
          simp only [List.length_cons]
          rw [wrapLoop_step_skip width rest st hn hsk (Nat.le_refl _)]
          exact ih rest hrest st
        · have hc : isSep c = false := by
            simp only [isSep, Bool.or_eq_false_iff, decide_eq_false_iff_not]
            push_neg at hsk
            exact ⟨⟨⟨hn, hsk.1⟩, hsk.2.1⟩, hsk.2.2⟩
          rcases hsw : scanWord (c :: rest) with ⟨w, v, r⟩
          obtain ⟨hsplit, hwsep, hrsep, hv⟩ := scanWord_char_split hsw
          have hwne : w ≠ [] := scanWord_ne_nil hc hsw
          have hrl := scanWord_rest_lt hc hsw
          simp only [List.length_cons] at hrl
          have hrn : r.length ≤ n := by
            simp only [List.length_cons] at hcs
            omega
          rw [tokLoop_word hc hsw]
          simp only [List.length_cons]
          rw [wrapLoop_step_word width st hc hsw (Nat.le_refl _)]
          cases htok : tokLoop r with
          | nil =>
            rw [show renderToks [WrapToken.word w v] = w from rfl]
            rw [wrapLoop_of_tokLoop_nil width r.length r (Nat.le_refl _) htok]
            have := wrapLoop_word_front width w hwne hwsep [] trivial v hv st
            simpa using this
          | cons tk t' =>
            cases tk with
            | nl =>
              rw [show renderToks (WrapToken.word w v :: WrapToken.nl :: t')
                = w ++ renderToks (WrapToken.nl :: t') from rfl]
              have hXsep : sepHead (renderToks (WrapToken.nl :: t')) := by
                rw [show renderToks (WrapToken.nl :: t') = '\n' :: renderToks t' from rfl]
                simp [sepHead, isSep]
              rw [wrapLoop_word_front width w hwne hwsep _ hXsep v hv st]
              have ihr := ih r hrn (addWord width w v st)
              rw [htok] at ihr
              exact ihr
            | word w2 v2 =>
              rw [show renderToks (WrapToken.word w v :: WrapToken.word w2 v2 :: t')
                = w ++ ' ' :: renderToks (WrapToken.word w2 v2 :: t') from rfl]
              have hXsep : sepHead (' ' :: renderToks (WrapToken.word w2 v2 :: t')) := by
                simp [sepHead, isSep]
              rw [wrapLoop_word_front width w hwne hwsep _ hXsep v hv st]
              have hskip : wrapLoopF width (' ' :: renderToks (WrapToken.word w2 v2 :: t')).length
                  (' ' :: renderToks (WrapToken.word w2 v2 :: t')) (addWord width w v st)
                  = wrapLoopF width (renderToks (WrapToken.word w2 v2 :: t')).length
                    (renderToks (WrapToken.word w2 v2 :: t')) (addWord width w v st) := by
                simp only [List.length_cons]
                exact wrapLoop_step_skip width _ _ (by decide) (Or.inr (Or.inl rfl))
                  (Nat.le_refl _)
              rw [hskip]
              have ihr := ih r hrn (addWord width w v st)
              rw [htok] at ihr
              exact ihr

/-- C10: `wrapText` does not preserve inter-word whitespace. For every
input string and width, the result is identical to wrapping the
whitespace-canonical form of the input, in which runs of spaces and tabs
(and carriage returns) are gone, adjacent words are joined by exactly
one space and segments carry no leading or trailing spaces; original
indentation and multiple-space runs are lost, as the concrete
canonicalizations show. -/
theorem wrapText_whitespace_canonical :
    (∀ (s : String) (width : Nat), wrapText s width = wrapText (canonicalStr s) width) ∧
    canonicalStr "  hello \t\t world  " = "hello world" ∧
    canonicalStr "a\r\n  b   c \n" = "a\nb c\n" ∧
    wrapText "  hello \t\t world  " 80 = ["hello world"] := by
  refine ⟨?_, by decide, by decide, by decide⟩
  intro s width
  simp only [wrapText]
  rw [show (canonicalStr s).data = renderToks (tokLoop s.data) from rfl]
  rw [wrapLoop_canonical width s.data.length s.data (Nat.le_refl _) ⟨[], [], 0⟩]

end Miniterm
